import Mathlib

/-!
Verification of the renpy screen-language-1 decompiler
(`decompiler/screendecompiler.py`).

The development is a shallow embedding of the module: python strings are
modelled as `List Char`, the mutable output stream / indentation counter as an
explicit `PWriter` state, python exceptions as an `Except` error result, and the
mutually recursive printing routines as a fuel-indexed interpreter `run`.
All definitions are translated from the source; the few collaborators that live
outside this module (the writer base class, `simple_expression_guard`,
`WordConcatenator`, `codegen.to_source`, `reconstruct_paraminfo`) are modelled
from the specification and marked as such.
-/

/-- Characters lists standing for python (unicode) strings. -/
abbrev LC := List Char

/-- Python notion of whitespace used by `str.strip` / `str.lstrip`. -/
def pySpace (c : Char) : Bool :=
  c == ' ' || c == '\t' || c == '\n' || c == '\r' || c == '\x0b' || c == '\x0c'

/-- Model of python `str.lstrip()`. -/
def pyLStrip (l : LC) : LC := l.dropWhile pySpace

/-- Model of python `str.rstrip()`. -/
def pyRStrip (l : LC) : LC := (l.reverse.dropWhile pySpace).reverse

/-- Model of python `str.strip()`. -/
def pyStrip (l : LC) : LC := pyRStrip (pyLStrip l)

/-- Split on every occurrence of the character `sep` (python `str.split(sep)`):
the result is never empty and has one more element than there are separators. -/
def splitChar (sep : Char) : LC → List LC
  | [] => [[]]
  | c :: rest =>
    match splitChar sep rest with
    | [] => if c = sep then [[], []] else [[c]]
    | p :: ps => if c = sep then [] :: p :: ps else (c :: p) :: ps

/-- Model of python `str.splitlines()` for texts whose only line terminator is
the newline character: the final empty piece produced by a trailing newline is
dropped, and the empty string has no lines. -/
def splitlinesPy (l : LC) : List LC :=
  if l = [] then []
  else
    let parts := splitChar '\n' l
    if parts.getLast? = some [] then parts.dropLast else parts

/-- Model of python `str.split(sep, 1)` for a one-character separator, exposing
whether the separator occurred: `none` models the single-element result list. -/
def splitOnceChar (sep : Char) : LC → Option (LC × LC)
  | [] => none
  | c :: rest =>
    if c = sep then some ([], rest)
    else (splitOnceChar sep rest).map (fun p => (c :: p.1, p.2))

/-- Model of python `str.split(sep, 1)` for a string separator (`none` when the
separator does not occur). -/
def splitOnceList (pat : LC) : LC → Option (LC × LC)
  | [] => if pat.isPrefixOf ([] : LC) then some ([], []) else none
  | c :: rest =>
    if pat.isPrefixOf (c :: rest) then some ([], (c :: rest).drop pat.length)
    else (splitOnceList pat rest).map (fun p => (c :: p.1, p.2))

/-- Model of python `s.rsplit(String ch, 1)[0]`: everything before the last
occurrence of `ch`, or the whole string when `ch` does not occur. -/
def beforeLastChar (ch : Char) (s : LC) : LC :=
  match s.reverse.dropWhile (fun c => ¬ c = ch) with
  | [] => s
  | _ :: beforeRev => beforeRev.reverse

/-- Model of the python substring test `pat in s`. -/
def containsSub (pat : LC) : LC → Bool
  | [] => pat.isPrefixOf ([] : LC)
  | c :: rest => pat.isPrefixOf (c :: rest) || containsSub pat rest


/-- Consume an exact literal at the front of the input (one regex literal). -/
def litStep (lit : LC) (s : LC) : Option LC :=
  if lit.isPrefixOf s then some (s.drop lit.length) else none

/-- Consume the maximal run of characters satisfying `p` (a greedy quantified
class; deterministic whenever the following pattern part cannot satisfy `p`). -/
def takeStep (p : Char → Bool) (s : LC) : LC × LC :=
  (s.takeWhile p, s.dropWhile p)

lemma litStep_eq_some {lit s r : LC} : litStep lit s = some r ↔ s = lit ++ r := by
  unfold litStep
  constructor
  · intro h
    split at h
    case isTrue hp =>
      obtain ⟨t, ht⟩ := List.isPrefixOf_iff_prefix.mp hp
      rw [Option.some.injEq] at h
      rw [← ht, ← h, ← ht]
      simp
    case isFalse => exact absurd h (by simp)
  · intro h
    subst h
    have hp : lit.isPrefixOf (lit ++ r) := List.isPrefixOf_iff_prefix.mpr ⟨r, rfl⟩
    simp [hp]

lemma litStep_none_of_ne {lit s : LC} (h : ¬ lit.isPrefixOf s) : litStep lit s = none := by
  simp [litStep, h]

lemma takeStep_decomp (p : Char → Bool) (s : LC) :
    s = (takeStep p s).1 ++ (takeStep p s).2 := by
  simp [takeStep]

lemma takeStep_all (p : Char → Bool) (s : LC) : ∀ c ∈ (takeStep p s).1, p c = true :=
  fun _ hc => List.mem_takeWhile_imp hc

/-!  ## Header Codec (`parse_header`, source lines 393-401)

The function `parse_header` is `re.search` of the pattern

  ` *_([0-9]+) = \(_([0-9]+|name), _?([0-9]+)\) *\n?`

returning the three groups.  The leading ` *` and the trailing ` *\n?` parts of
the pattern are optional and capture nothing, so neither acceptance of the
search nor the returned groups depend on them; the matcher below therefore
starts at the `_` after skipping spaces and stops after the closing `)`.
Greediness and alternation are deterministic here because every quantified
class is followed by a character it cannot contain.
-/

/-- Consume an optional one-character literal (a regex `lit?`): returns the
consumed text and the rest.  Deterministic because in both uses the following
pattern part cannot start with the optional character. -/
def optStep (lit : LC) (s : LC) : LC × LC :=
  match litStep lit s with
  | some t => (lit, t)
  | none => ([], s)

lemma optStep_decomp (lit s : LC) : s = (optStep lit s).1 ++ (optStep lit s).2 := by
  unfold optStep
  cases h : litStep lit s with
  | none => simp
  | some t => simpa using litStep_eq_some.mp h

/-- Attempt of the header regex at the start of `s`, returning the three groups
(own id, parent id or the literal name, index). -/
def matchParseHeaderAt (s : LC) : Option (LC × LC × LC) :=
  let r1 := (takeStep (fun c => c = ' ') s).2
  (litStep ['_'] r1).bind fun r2 =>
  let d1 := (takeStep Char.isDigit r2).1
  let r3 := (takeStep Char.isDigit r2).2
  if d1 = [] then none else
  (litStep [' ', '=', ' ', '(', '_'] r3).bind fun r4 =>
  (if (takeStep Char.isDigit r4).1 = [] then
     (litStep ['n', 'a', 'm', 'e'] r4).map (fun r5 => (['n', 'a', 'm', 'e'], r5))
   else some ((takeStep Char.isDigit r4).1, (takeStep Char.isDigit r4).2)).bind fun pr =>
  (litStep [',', ' '] pr.2).bind fun r6 =>
  let r7 := (optStep ['_'] r6).2
  let d3 := (takeStep Char.isDigit r7).1
  if d3 = [] then none else
  (litStep [')'] (takeStep Char.isDigit r7).2).bind fun _ =>
  some (d1, pr.1, d3)

/-- Model of `parse_header` (source lines 393-401): `re.search` tries every
start position from the left; `none` models the python `None` result.  The
function is total, so the "never throws" part of the contract is structural. -/
def parse_header : LC → Option (LC × LC × LC)
  | [] => none
  | c :: rest =>
    match matchParseHeaderAt (c :: rest) with
    | some g => some g
    | none => parse_header rest

/-!  ## Split pattern of the Block Splitter (source line 150)

`print_nodes` splits the block on the regex

  `( *_[0-9]+ = \(_PID, _?[0-9]+\) *\n?)`

where `PID` is the parent id recovered from the first line (digits, or the
literal `name`).  Because the whole pattern is one capture group, `re.split`
alternates descriptive text and captured delimiters; `matchHeaderAt` is the
pattern anchored at a position, and `findHeaderMatch` is the leftmost match.
-/

/-- Attempt of the split pattern at the start of `s`; on success returns the
matched text (the captured delimiter of `re.split`) and the rest of `s`. -/
def matchHeaderAt (pid : LC) (s : LC) : Option (LC × LC) :=
  let sp := (takeStep (fun c => c = ' ') s).1
  let r1 := (takeStep (fun c => c = ' ') s).2
  (litStep ['_'] r1).bind fun r2 =>
  let d1 := (takeStep Char.isDigit r2).1
  let r3 := (takeStep Char.isDigit r2).2
  if d1 = [] then none else
  (litStep [' ', '=', ' ', '(', '_'] r3).bind fun r4 =>
  (litStep pid r4).bind fun r5 =>
  (litStep [',', ' '] r5).bind fun r6 =>
  let us := (optStep ['_'] r6).1
  let r7 := (optStep ['_'] r6).2
  let d3 := (takeStep Char.isDigit r7).1
  let r8 := (takeStep Char.isDigit r7).2
  if d3 = [] then none else
  (litStep [')'] r8).bind fun r9 =>
  let sp2 := (takeStep (fun c => c = ' ') r9).1
  let r10 := (takeStep (fun c => c = ' ') r9).2
  let nl := (optStep ['\n'] r10).1
  let r11 := (optStep ['\n'] r10).2
  some (sp ++ ['_'] ++ d1 ++ [' ', '=', ' ', '(', '_'] ++ pid ++ [',', ' '] ++ us
          ++ d3 ++ [')'] ++ sp2 ++ nl, r11)

/-- Leftmost match of the split pattern: `(text before, match, text after)`. -/
def findHeaderMatch (pid : LC) : LC → Option (LC × LC × LC)
  | [] =>
    match matchHeaderAt pid [] with
    | some (m, r) => some ([], m, r)
    | none => none
  | c :: rest =>
    match matchHeaderAt pid (c :: rest) with
    | some (m, r) => some ([], m, r)
    | none => (findHeaderMatch pid rest).map (fun t => (c :: t.1, t.2.1, t.2.2))

lemma matchHeaderAt_decomp {pid s m r : LC} (h : matchHeaderAt pid s = some (m, r)) :
    s = m ++ r ∧ 0 < m.length := by
  unfold matchHeaderAt at h
  simp only [Option.bind_eq_some] at h
  obtain ⟨r2, h1, h⟩ := h
  split at h
  case isTrue => exact absurd h (by simp)
  case isFalse hd1 =>
    simp only [Option.bind_eq_some] at h
    obtain ⟨r4, h3, r5, h4, r6, h5, h⟩ := h
    split at h
    case isTrue => exact absurd h (by simp)
    case isFalse hd3 =>
      simp only [Option.bind_eq_some, Option.some.injEq, Prod.mk.injEq] at h
      obtain ⟨r9, h8, hm, hr⟩ := h
      constructor
      · subst hm hr
        conv_lhs => rw [takeStep_decomp (fun c => c = ' ') s]
        rw [litStep_eq_some.mp h1]
        conv_lhs => rw [takeStep_decomp Char.isDigit r2]
        rw [litStep_eq_some.mp h3, litStep_eq_some.mp h4, litStep_eq_some.mp h5]
        conv_lhs => rw [optStep_decomp ['_'] r6]
        conv_lhs => rw [takeStep_decomp Char.isDigit (optStep ['_'] r6).2]
        rw [litStep_eq_some.mp h8]
        conv_lhs => rw [takeStep_decomp (fun c => c = ' ') r9]
        conv_lhs => rw [optStep_decomp ['\n'] (takeStep (fun c => c = ' ') r9).2]
        simp [List.append_assoc]
      · subst hm
        simp

lemma findHeaderMatch_decomp {pid s pre m r : LC}
    (h : findHeaderMatch pid s = some (pre, m, r)) : s = pre ++ m ++ r ∧ 0 < m.length := by
  induction s generalizing pre with
  | nil =>
    unfold findHeaderMatch at h
    cases hm : matchHeaderAt pid [] with
    | none => rw [hm] at h; exact absurd h (by simp)
    | some v =>
      rw [hm] at h
      obtain ⟨mv, rv⟩ := v
      simp only [Option.some.injEq, Prod.mk.injEq] at h
      obtain ⟨h1, h2, h3⟩ := h
      subst h1 h2 h3
      obtain ⟨hd, hl⟩ := matchHeaderAt_decomp hm
      exact ⟨by simpa using hd, hl⟩
  | cons c rest ih =>
    unfold findHeaderMatch at h
    cases hm : matchHeaderAt pid (c :: rest) with
    | some v =>
      rw [hm] at h
      obtain ⟨mv, rv⟩ := v
      simp only [Option.some.injEq, Prod.mk.injEq] at h
      obtain ⟨h1, h2, h3⟩ := h
      subst h1 h2 h3
      obtain ⟨hd, hl⟩ := matchHeaderAt_decomp hm
      exact ⟨by simpa using hd, hl⟩
    | none =>
      rw [hm] at h
      simp only [Option.map_eq_some, Option.map_eq_some'] at h
      obtain ⟨⟨p1, m1, r1⟩, hf, hv⟩ := h
      simp only [Prod.mk.injEq] at hv
      obtain ⟨h1, h2, h3⟩ := hv
      subst h2 h3
      obtain ⟨hd, hl⟩ := ih hf
      subst h1
      exact ⟨by simp [hd], hl⟩

/-- Model of `re.split` with the one-group split pattern (source line 150):
returns the text before the first delimiter together with the alternating list
of `(captured delimiter, following text)` pairs. -/
def reSplitHeader (pid : LC) (s : LC) : LC × List (LC × LC) :=
  match hf : findHeaderMatch pid s with
  | none =>
    let _ := hf
    (s, [])
  | some (pre, m, post) =>
    let rest := reSplitHeader pid post
    (pre, (m, rest.1) :: rest.2)
termination_by s.length
decreasing_by
  obtain ⟨hd, hl⟩ := findHeaderMatch_decomp hf
  subst hd
  simp only [List.length_append]
  omega

/-- The `(header, body)` records dispatched by `print_nodes` (source lines
143-154): the early return on a single-line input yields no records, a first
line that is not a header makes the tuple unpacking of `parse_header`'s `None`
raise, and otherwise the records are the delimiter/text pairs of `re.split`. -/
def printNodesRecords (code : LC) : Except Unit (List (LC × LC)) :=
  match splitOnceChar '\n' code with
  | none => .ok []
  | some (header, _) =>
    match parse_header header with
    | none => .error ()
    | some (_, parent_id, _) => .ok (reSplitHeader parent_id code).2

/-!  ## Locality of the split pattern

Every character the split pattern can consume before its final optional
newline is different from a newline.  Hence on an input whose final character
is a newline the matcher never reads past the end, and failure of the pattern
on such an input is stable under appending arbitrary text.  These lemmas are
what lets the Block Splitter theorem treat each body locally.
-/

lemma getLast?_suffix_of_ne_nil {l t : LC} (h : t <:+ l) (ht : t ≠ []) :
    t.getLast? = l.getLast? := by
  obtain ⟨a, ha⟩ := h
  rw [← ha, List.getLast?_append_of_ne_nil a ht]

lemma takeStep_append_newline {p : Char → Bool} (hp : p '\n' = false) {x : LC} (y : LC)
    (hl : x.getLast? = some '\n') :
    (takeStep p (x ++ y)).1 = (takeStep p x).1
    ∧ (takeStep p (x ++ y)).2 = (takeStep p x).2 ++ y
    ∧ (takeStep p x).2 ≠ [] ∧ ((takeStep p x).2).getLast? = some '\n' := by
  have hmem : '\n' ∈ x := List.mem_of_mem_getLast? hl
  have hne : x.dropWhile p ≠ [] := by
    intro hcon
    have := (List.dropWhile_eq_nil_iff).mp hcon '\n' hmem
    simp [hp] at this
  have hlen : (x.takeWhile p).length ≠ x.length := by
    intro hcon
    have := List.takeWhile_append_dropWhile (p := p) (l := x)
    have hx2 : x.takeWhile p = x := by
      have h1 : x.takeWhile p <+: x := List.takeWhile_prefix p
      exact h1.eq_of_length_le (le_of_eq hcon.symm)
    rw [hx2] at this
    have : x.dropWhile p = [] := by
      have := congrArg List.length this
      simp at this
      simpa using this
    exact hne this
  refine ⟨?_, ?_, hne, ?_⟩
  · simp only [takeStep, List.takeWhile_append]
    simp [hlen]
  · simp only [takeStep, List.dropWhile_append]
    simp [List.isEmpty_iff, hne]
  · exact getLast?_suffix_of_ne_nil (List.dropWhile_suffix p) hne ▸ hl

lemma litStep_append_newline {q : LC} (hlit : '\n' ∉ q) {x : LC} (y : LC)
    (hl : x.getLast? = some '\n') :
    litStep q (x ++ y) = (litStep q x).map (fun r => r ++ y)
    ∧ ∀ r, litStep q x = some r → r ≠ [] ∧ r.getLast? = some '\n' := by
  have hmem : '\n' ∈ x := List.mem_of_mem_getLast? hl
  by_cases hp : q.isPrefixOf x
  · have hpre := List.isPrefixOf_iff_prefix.mp hp
    obtain ⟨t, ht⟩ := hpre
    have hx : x = q ++ t := ht.symm
    have hlx : litStep q x = some t := litStep_eq_some.mpr hx
    have hty : x ++ y = q ++ (t ++ y) := by rw [hx]; simp
    have hlxy : litStep q (x ++ y) = some (t ++ y) := litStep_eq_some.mpr hty
    refine ⟨by simp [hlx, hlxy], ?_⟩
    intro r hr
    rw [hlx, Option.some.injEq] at hr
    have hxr : x = q ++ r := by rw [hx, hr]
    have hrne : r ≠ [] := by
      intro hcon
      subst hcon
      rw [List.append_nil] at hxr
      exact hlit (hxr ▸ hmem)
    refine ⟨hrne, ?_⟩
    have hsuf : r <:+ x := ⟨q, hxr.symm⟩
    rw [getLast?_suffix_of_ne_nil hsuf hrne]
    exact hl
  · have hlx : litStep q x = none := litStep_none_of_ne hp
    have hpy : ¬ q.isPrefixOf (x ++ y) := by
      intro hcon
      have hpre := List.isPrefixOf_iff_prefix.mp hcon
      by_cases hlen : x.length ≤ q.length
      · have hxp : x <+: q := by
          have h1 : x <+: x ++ y := ⟨y, rfl⟩
          rcases List.prefix_or_prefix_of_prefix h1 hpre with h | h
          · exact h
          · exact h.eq_of_length_le hlen ▸ List.prefix_refl x
        exact hlit (hxp.subset hmem)
      · push_neg at hlen
        have : q <+: x := by
          have h1 : q = (x ++ y).take q.length := by
            obtain ⟨t, ht⟩ := hpre
            rw [← ht]
            simp
          rw [List.take_append_of_le_length (le_of_lt hlen)] at h1
          exact h1 ▸ List.take_prefix q.length x
        exact hp (List.isPrefixOf_iff_prefix.mpr this)
    simp [hlx, litStep_none_of_ne hpy]

lemma optStep_append_newline {q : LC} (hlit : '\n' ∉ q) {x : LC} (y : LC)
    (hl : x.getLast? = some '\n') :
    (optStep q (x ++ y)).1 = (optStep q x).1
    ∧ (optStep q (x ++ y)).2 = (optStep q x).2 ++ y
    ∧ (optStep q x).2 ≠ [] ∧ ((optStep q x).2).getLast? = some '\n' := by
  obtain ⟨hmap, hinv⟩ := litStep_append_newline hlit y hl
  unfold optStep
  cases hx : litStep q x with
  | none =>
    rw [hx] at hmap
    simp only [Option.map_none'] at hmap
    rw [hmap]
    have hne : x ≠ [] := by
      intro hcon
      subst hcon
      simp at hl
    exact ⟨rfl, rfl, hne, hl⟩
  | some t =>
    rw [hx] at hmap
    simp only [Option.map_some'] at hmap
    rw [hmap]
    obtain ⟨h1, h2⟩ := hinv t hx
    exact ⟨rfl, rfl, h1, h2⟩

lemma matchHeaderAt_append_some {pid x y m r : LC} (hpid : '\n' ∉ pid)
    (hl : x.getLast? = some '\n') (h : matchHeaderAt pid (x ++ y) = some (m, r)) :
    ∃ m2 r2, matchHeaderAt pid x = some (m2, r2) := by
  unfold matchHeaderAt at h
  simp only [Option.bind_eq_some] at h
  obtain ⟨ht1a, ht1b, ht1ne, ht1l⟩ :=
    takeStep_append_newline (p := fun c => c = ' ') (by decide) y hl
  rw [ht1b] at h
  obtain ⟨r2y, h1y, h⟩ := h
  obtain ⟨hmap1, hinv1⟩ := litStep_append_newline (q := ['_']) (by decide) y ht1l
  rw [hmap1, Option.map_eq_some'] at h1y
  obtain ⟨r2, h1, hr2y⟩ := h1y
  subst hr2y
  obtain ⟨h2ne, h2l⟩ := hinv1 r2 h1
  obtain ⟨ht2a, ht2b, ht2ne, ht2l⟩ :=
    takeStep_append_newline (p := Char.isDigit) (by decide) y h2l
  rw [ht2a, ht2b] at h
  split at h
  case isTrue => exact absurd h (by simp)
  case isFalse hd1 =>
    simp only [Option.bind_eq_some] at h
    obtain ⟨r4y, h3y, h⟩ := h
    obtain ⟨hmap3, hinv3⟩ := litStep_append_newline (q := [' ', '=', ' ', '(', '_']) (by decide) y ht2l
    rw [hmap3, Option.map_eq_some'] at h3y
    obtain ⟨r4, h3, hr4y⟩ := h3y
    subst hr4y
    obtain ⟨h4ne, h4l⟩ := hinv3 r4 h3
    obtain ⟨r5y, h4y, h⟩ := h
    obtain ⟨hmap4, hinv4⟩ := litStep_append_newline (q := pid) hpid y h4l
    rw [hmap4, Option.map_eq_some'] at h4y
    obtain ⟨r5, h4, hr5y⟩ := h4y
    subst hr5y
    obtain ⟨h5ne, h5l⟩ := hinv4 r5 h4
    obtain ⟨r6y, h5y, h⟩ := h
    obtain ⟨hmap5, hinv5⟩ := litStep_append_newline (q := [',', ' ']) (by decide) y h5l
    rw [hmap5, Option.map_eq_some'] at h5y
    obtain ⟨r6, h5, hr6y⟩ := h5y
    subst hr6y
    obtain ⟨h6ne, h6l⟩ := hinv5 r6 h5
    obtain ⟨ho1, ho2, ho3, ho4⟩ := optStep_append_newline (q := ['_']) (by decide) y h6l
    rw [ho2] at h
    obtain ⟨ht3a, ht3b, ht3ne, ht3l⟩ :=
      takeStep_append_newline (p := Char.isDigit) (by decide) y ho4
    rw [ht3a, ht3b] at h
    split at h
    case isTrue => exact absurd h (by simp)
    case isFalse hd3 =>
      simp only [Option.bind_eq_some] at h
      obtain ⟨r9y, h8y, _⟩ := h
      obtain ⟨hmap8, hinv8⟩ := litStep_append_newline (q := [')']) (by decide) y ht3l
      rw [hmap8, Option.map_eq_some'] at h8y
      obtain ⟨r9, h8, hr9y⟩ := h8y
      have hs : (matchHeaderAt pid x).isSome = true := by
        unfold matchHeaderAt
        simp only
        rw [h1]
        simp only [Option.some_bind]
        rw [if_neg hd1, h3]
        simp only [Option.some_bind]
        rw [h4]
        simp only [Option.some_bind]
        rw [h5]
        simp only [Option.some_bind]
        rw [if_neg hd3, h8]
        simp
      obtain ⟨v, hv⟩ := Option.isSome_iff_exists.mp hs
      exact ⟨v.1, v.2, by rw [hv]⟩

lemma matchHeaderAt_append_none {pid x y : LC} (hpid : '\n' ∉ pid)
    (hl : x.getLast? = some '\n') (h : matchHeaderAt pid x = none) :
    matchHeaderAt pid (x ++ y) = none := by
  cases hxy : matchHeaderAt pid (x ++ y) with
  | none => rfl
  | some v =>
    obtain ⟨m2, r2, h2⟩ := matchHeaderAt_append_some hpid hl (m := v.1) (r := v.2)
      (by rw [hxy])
    rw [h] at h2
    exact absurd h2 (by simp)

lemma findHeaderMatch_cons (pid : LC) (c : Char) (rest : LC) :
    findHeaderMatch pid (c :: rest) =
      match matchHeaderAt pid (c :: rest) with
      | some (m, r) => some ([], m, r)
      | none => (findHeaderMatch pid rest).map (fun t => (c :: t.1, t.2.1, t.2.2)) := rfl

lemma findHeaderMatch_skip_body {pid b : LC} (s : LC) (hpid : '\n' ∉ pid)
    (hb : findHeaderMatch pid b = none) (hlast : b = [] ∨ b.getLast? = some '\n') :
    findHeaderMatch pid (b ++ s) =
      (findHeaderMatch pid s).map (fun t => (b ++ t.1, t.2.1, t.2.2)) := by
  induction b with
  | nil =>
    simp only [List.nil_append]
    cases hf : findHeaderMatch pid s with
    | none => simp
    | some t => simp
  | cons c b' ih =>
    have hlast' : (c :: b').getLast? = some '\n' := by
      rcases hlast with h | h
      · exact absurd h (by simp)
      · exact h
    rw [findHeaderMatch_cons] at hb
    have hmc : matchHeaderAt pid (c :: b') = none := by
      cases hm : matchHeaderAt pid (c :: b') with
      | none => rfl
      | some v =>
        rw [hm] at hb
        obtain ⟨mv, rv⟩ := v
        exact absurd hb (by simp)
    rw [hmc] at hb
    have hb' : findHeaderMatch pid b' = none := by
      cases hf : findHeaderMatch pid b' with
      | none => rfl
      | some t => rw [hf] at hb; exact absurd hb (by simp)
    have hlast'' : b' = [] ∨ b'.getLast? = some '\n' := by
      cases hb'e : b' with
      | nil => exact Or.inl rfl
      | cons d b'' =>
        refine Or.inr ?_
        rw [hb'e] at hlast'
        simpa using hlast'
    have hx : matchHeaderAt pid ((c :: b') ++ s) = none :=
      matchHeaderAt_append_none hpid hlast' hmc
    have hstep : findHeaderMatch pid ((c :: b') ++ s)
        = (findHeaderMatch pid (b' ++ s)).map (fun t => (c :: t.1, t.2.1, t.2.2)) := by
      rw [show ((c :: b') ++ s) = c :: (b' ++ s) from rfl, findHeaderMatch_cons]
      rw [show (c :: (b' ++ s)) = ((c :: b') ++ s) from rfl, hx]
    rw [hstep, ih hb' hlast'']
    cases hf : findHeaderMatch pid s with
    | none => simp
    | some t => simp

lemma takeWhile_append_of_all {p : Char → Bool} {a : LC} (b : LC)
    (h : ∀ c ∈ a, p c = true) : (a ++ b).takeWhile p = a ++ b.takeWhile p := by
  induction a with
  | nil => simp
  | cons c cs ih =>
    have hc := h c (by simp)
    have ih' := ih (fun d hd => h d (by simp [hd]))
    simp [List.takeWhile_cons, hc, ih']

lemma dropWhile_append_of_all {p : Char → Bool} {a : LC} (b : LC)
    (h : ∀ c ∈ a, p c = true) : (a ++ b).dropWhile p = b.dropWhile p := by
  induction a with
  | nil => simp
  | cons c cs ih =>
    have hc := h c (by simp)
    have ih' := ih (fun d hd => h d (by simp [hd]))
    simp [List.dropWhile_cons, hc, ih']

lemma takeStep_seg {p : Char → Bool} {a : LC} {c : Char} (b : LC)
    (h : ∀ d ∈ a, p d = true) (hc : p c = false) :
    takeStep p (a ++ c :: b) = (a, c :: b) := by
  unfold takeStep
  rw [takeWhile_append_of_all _ h, dropWhile_append_of_all _ h]
  simp [List.takeWhile_cons, List.dropWhile_cons, hc]

lemma litStep_self (lit s : LC) : litStep lit (lit ++ s) = some s := litStep_eq_some.mpr rfl

lemma matchHeaderAt_render_aux {pid sp own idx us : LC} (rest : LC)
    (hsp : ∀ ch ∈ sp, ch = ' ')
    (hone : own ≠ []) (hodig : ∀ ch ∈ own, ch.isDigit = true)
    (hine : idx ≠ []) (hidig : ∀ ch ∈ idx, ch.isDigit = true)
    (hU : optStep ['_'] (us ++ (idx ++ (')' :: '\n' :: rest)))
        = (us, idx ++ (')' :: '\n' :: rest))) :
    matchHeaderAt pid (sp ++ ('_' :: (own ++ (' ' :: '=' :: ' ' :: '(' :: '_' ::
        (pid ++ (',' :: ' ' :: (us ++ (idx ++ (')' :: '\n' :: rest)))))))))
      = some (sp ++ ('_' :: (own ++ (' ' :: '=' :: ' ' :: '(' :: '_' ::
        (pid ++ (',' :: ' ' :: (us ++ (idx ++ [')', '\n']))))))), rest) := by
  have e1 : takeStep (fun c => c = ' ') (sp ++ '_' :: (own ++ (' ' :: '=' :: ' ' :: '(' :: '_' ::
        (pid ++ (',' :: ' ' :: (us ++ (idx ++ (')' :: '\n' :: rest))))))))
      = (sp, '_' :: (own ++ (' ' :: '=' :: ' ' :: '(' :: '_' ::
        (pid ++ (',' :: ' ' :: (us ++ (idx ++ (')' :: '\n' :: rest)))))))) :=
    takeStep_seg _ (fun d hd => by simp [hsp d hd]) (by decide)
  have el1 : litStep ['_'] ('_' :: (own ++ (' ' :: '=' :: ' ' :: '(' :: '_' ::
        (pid ++ (',' :: ' ' :: (us ++ (idx ++ (')' :: '\n' :: rest))))))))
      = some (own ++ (' ' :: '=' :: ' ' :: '(' :: '_' ::
        (pid ++ (',' :: ' ' :: (us ++ (idx ++ (')' :: '\n' :: rest))))))) :=
    litStep_eq_some.mpr rfl
  have e2 : takeStep Char.isDigit (own ++ (' ' :: '=' :: ' ' :: '(' :: '_' ::
        (pid ++ (',' :: ' ' :: (us ++ (idx ++ (')' :: '\n' :: rest)))))))
      = (own, ' ' :: '=' :: ' ' :: '(' :: '_' ::
        (pid ++ (',' :: ' ' :: (us ++ (idx ++ (')' :: '\n' :: rest)))))) :=
    takeStep_seg _ hodig (by decide)
  have el2 : litStep [' ', '=', ' ', '(', '_'] (' ' :: '=' :: ' ' :: '(' :: '_' ::
        (pid ++ (',' :: ' ' :: (us ++ (idx ++ (')' :: '\n' :: rest))))))
      = some (pid ++ (',' :: ' ' :: (us ++ (idx ++ (')' :: '\n' :: rest))))) :=
    litStep_eq_some.mpr rfl
  have el3 : litStep pid (pid ++ (',' :: ' ' :: (us ++ (idx ++ (')' :: '\n' :: rest)))))
      = some (',' :: ' ' :: (us ++ (idx ++ (')' :: '\n' :: rest)))) := litStep_self _ _
  have el4 : litStep [',', ' '] (',' :: ' ' :: (us ++ (idx ++ (')' :: '\n' :: rest))))
      = some (us ++ (idx ++ (')' :: '\n' :: rest))) := litStep_eq_some.mpr rfl
  have e4 : takeStep Char.isDigit (idx ++ (')' :: '\n' :: rest))
      = (idx, ')' :: '\n' :: rest) := takeStep_seg _ hidig (by decide)
  have el5 : litStep [')'] (')' :: '\n' :: rest) = some ('\n' :: rest) :=
    litStep_eq_some.mpr rfl
  have e5 : takeStep (fun c => c = ' ') ('\n' :: rest) = ([], '\n' :: rest) :=
    takeStep_seg (a := []) _ (by simp) (by decide)
  have e6 : optStep ['\n'] ('\n' :: rest) = (['\n'], rest) := by
    unfold optStep
    rw [show litStep ['\n'] ('\n' :: rest) = some rest from litStep_eq_some.mpr rfl]
  unfold matchHeaderAt
  simp only [e1, el1, Option.some_bind, e2]
  rw [if_neg hone]
  simp only [el2, Option.some_bind, el3, el4, hU, e4]
  rw [if_neg hine]
  simp only [el5, Option.some_bind, e5, e6]
  simp [List.append_assoc]

/-!  ## Synthetic blocks for the Block Splitter theorem

A block that the Block Splitter can be exercised on is a sequence of sibling
header lines, all with the same parent id, each followed by arbitrary
non-header text (its body).  `HChunk` is one such (header line, body) piece:
the header is rendered from its own id, optional index underscore, index and
leading spaces, and the body may be any text that ends at a line break and
contains no header with this parent id.
-/

structure HChunk where
  sp : LC
  own : LC
  und : Bool
  idx : LC
  body : LC

/-- The header line (newline included) of a chunk, as the screen lang parser
would emit it. -/
def renderHeader (pid : LC) (c : HChunk) : LC :=
  c.sp ++ ['_'] ++ c.own ++ [' ', '=', ' ', '(', '_'] ++ pid ++ [',', ' ']
    ++ (if c.und then ['_'] else []) ++ c.idx ++ [')', '\n']

/-- Well-formedness of a chunk: spaces before the header, decimal ids, and a
body that ends at a line break (or is empty) and contains no header whose
parent is `pid`. -/
abbrev OkChunk (pid : LC) (c : HChunk) : Prop :=
  (∀ ch ∈ c.sp, ch = ' ') ∧ c.own ≠ [] ∧ (∀ ch ∈ c.own, ch.isDigit = true)
    ∧ c.idx ≠ [] ∧ (∀ ch ∈ c.idx, ch.isDigit = true)
    ∧ (c.body = [] ∨ c.body.getLast? = some '\n')
    ∧ findHeaderMatch pid c.body = none

/-- The flattened text built from a list of sibling chunks. -/
def renderChunks (pid : LC) (cs : List HChunk) : LC :=
  (cs.map (fun c => renderHeader pid c ++ c.body)).foldr (fun a b => a ++ b) []

/-- The `(header, body)` records the spec expects the Block Splitter to produce
from such a flattened text. -/
def chunkRecords (pid : LC) (cs : List HChunk) : List (LC × LC) :=
  cs.map (fun c => (renderHeader pid c, c.body))

lemma litStep_underscore_none {i0 : Char} {t : LC} (hdig : i0.isDigit = true) :
    litStep ['_'] (i0 :: t) = none := by
  apply litStep_none_of_ne
  have hne0 : ('_' == i0) = false := by
    by_contra hcon
    rw [Bool.not_eq_false, beq_iff_eq] at hcon
    rw [← hcon] at hdig
    exact absurd hdig (by decide)
  simp [List.isPrefixOf, hne0]

lemma matchHeaderAt_renderHeader {pid : LC} {c : HChunk} (hc : OkChunk pid c) (rest : LC) :
    matchHeaderAt pid (renderHeader pid c ++ rest) = some (renderHeader pid c, rest) := by
  obtain ⟨hsp, hone, hodig, hine, hidig, _, _⟩ := hc
  obtain ⟨i0, idx', hidx⟩ : ∃ i0 idx', c.idx = i0 :: idx' := by
    cases hx : c.idx with
    | nil => exact absurd hx hine
    | cons a l => exact ⟨a, l, rfl⟩
  have hU : optStep ['_'] ((if c.und then ['_'] else []) ++ (c.idx ++ (')' :: '\n' :: rest)))
      = ((if c.und then ['_'] else []), c.idx ++ (')' :: '\n' :: rest)) := by
    cases hcu : c.und with
    | true =>
      simp only [hcu, if_true]
      unfold optStep
      rw [litStep_self ['_'] (c.idx ++ (')' :: '\n' :: rest))]
    | false =>
      simp only [hcu, Bool.false_eq_true, if_false, List.nil_append]
      unfold optStep
      rw [hidx]
      simp only [List.cons_append]
      rw [litStep_underscore_none (hidig i0 (by simp [hidx]))]
  have he1 : renderHeader pid c ++ rest
      = c.sp ++ ('_' :: (c.own ++ (' ' :: '=' :: ' ' :: '(' :: '_' ::
          (pid ++ (',' :: ' ' :: ((if c.und then ['_'] else [])
            ++ (c.idx ++ (')' :: '\n' :: rest)))))))) := by
    simp [renderHeader, List.append_assoc]
  have he2 : renderHeader pid c
      = c.sp ++ ('_' :: (c.own ++ (' ' :: '=' :: ' ' :: '(' :: '_' ::
          (pid ++ (',' :: ' ' :: ((if c.und then ['_'] else [])
            ++ (c.idx ++ [')', '\n']))))))) := by
    simp [renderHeader, List.append_assoc]
  rw [he1, he2]
  exact matchHeaderAt_render_aux rest hsp hone hodig hine hidig hU

lemma findHeaderMatch_of_matchAt {pid s m r : LC} (h : matchHeaderAt pid s = some (m, r)) :
    findHeaderMatch pid s = some ([], m, r) := by
  cases s with
  | nil => unfold findHeaderMatch; rw [h]
  | cons c rest => rw [findHeaderMatch_cons, h]

lemma reSplitHeader_none {pid s : LC} (h : findHeaderMatch pid s = none) :
    reSplitHeader pid s = (s, []) := by
  conv_lhs => rw [reSplitHeader.eq_def]
  split
  next => rfl
  next pre m post hf => rw [h] at hf; exact absurd hf (by simp)

lemma reSplitHeader_some {pid s pre m post : LC}
    (h : findHeaderMatch pid s = some (pre, m, post)) :
    reSplitHeader pid s
      = (pre, (m, (reSplitHeader pid post).1) :: (reSplitHeader pid post).2) := by
  conv_lhs => rw [reSplitHeader.eq_def]
  split
  next hf => rw [h] at hf; exact absurd hf (by simp)
  next pre2 m2 post2 hf =>
    rw [h, Option.some.injEq, Prod.mk.injEq] at hf
    obtain ⟨h1, hf⟩ := hf
    rw [Prod.mk.injEq] at hf
    obtain ⟨h2, h3⟩ := hf
    subst h1 h2 h3
    rfl

/-- The core structure theorem for the Block Splitter: splitting a well-formed
flattened block preceded by well-formed garbage-free text recovers exactly the
chunk structure. -/
lemma reSplitHeader_renderChunks {pid : LC} (hnl : '\n' ∉ pid) (cs : List HChunk)
    (hcs : ∀ c ∈ cs, OkChunk pid c) :
    ∀ b : LC, findHeaderMatch pid b = none → (b = [] ∨ b.getLast? = some '\n') →
      reSplitHeader pid (b ++ renderChunks pid cs) = (b, chunkRecords pid cs) := by
  induction cs with
  | nil =>
    intro b hb hlast
    simp only [renderChunks, chunkRecords, List.map_nil, List.foldr_nil, List.append_nil]
    exact reSplitHeader_none hb
  | cons c cs ih =>
    intro b hb hlast
    have hok : OkChunk pid c := hcs c (by simp)
    obtain ⟨_, _, _, _, _, hblast, hbfind⟩ := hok
    have hrender : renderChunks pid (c :: cs)
        = renderHeader pid c ++ (c.body ++ renderChunks pid cs) := by
      simp [renderChunks, List.append_assoc]
    have hmatch : matchHeaderAt pid (renderHeader pid c ++ (c.body ++ renderChunks pid cs))
        = some (renderHeader pid c, c.body ++ renderChunks pid cs) :=
      matchHeaderAt_renderHeader (hcs c (by simp)) _
    have hfind : findHeaderMatch pid (b ++ renderChunks pid (c :: cs))
        = some (b, renderHeader pid c, c.body ++ renderChunks pid cs) := by
      rw [hrender, findHeaderMatch_skip_body _ hnl hb hlast,
        findHeaderMatch_of_matchAt hmatch]
      simp
    have hrec := ih (fun d hd => hcs d (by simp [hd])) c.body hbfind hblast
    rw [reSplitHeader_some hfind, hrec]
    simp [chunkRecords]

lemma matchParseHeaderAt_render_aux {sp own parent idx u : LC} (tail : LC)
    (hsp : ∀ ch ∈ sp, ch = ' ')
    (hone : own ≠ []) (hodig : ∀ ch ∈ own, ch.isDigit = true)
    (hpne : parent ≠ []) (hpdig : ∀ ch ∈ parent, ch.isDigit = true)
    (hine : idx ≠ []) (hidig : ∀ ch ∈ idx, ch.isDigit = true)
    (hU : optStep ['_'] (u ++ (idx ++ (')' :: tail))) = (u, idx ++ (')' :: tail))) :
    matchParseHeaderAt (sp ++ ('_' :: (own ++ (' ' :: '=' :: ' ' :: '(' :: '_' ::
        (parent ++ (',' :: ' ' :: (u ++ (idx ++ (')' :: tail)))))))))
      = some (own, parent, idx) := by
  have e1 : takeStep (fun c => c = ' ') (sp ++ '_' :: (own ++ (' ' :: '=' :: ' ' :: '(' :: '_' ::
        (parent ++ (',' :: ' ' :: (u ++ (idx ++ (')' :: tail))))))))
      = (sp, '_' :: (own ++ (' ' :: '=' :: ' ' :: '(' :: '_' ::
        (parent ++ (',' :: ' ' :: (u ++ (idx ++ (')' :: tail)))))))) :=
    takeStep_seg _ (fun d hd => by simp [hsp d hd]) (by decide)
  have el1 : litStep ['_'] ('_' :: (own ++ (' ' :: '=' :: ' ' :: '(' :: '_' ::
        (parent ++ (',' :: ' ' :: (u ++ (idx ++ (')' :: tail))))))))
      = some (own ++ (' ' :: '=' :: ' ' :: '(' :: '_' ::
        (parent ++ (',' :: ' ' :: (u ++ (idx ++ (')' :: tail))))))) :=
    litStep_eq_some.mpr rfl
  have e2 : takeStep Char.isDigit (own ++ (' ' :: '=' :: ' ' :: '(' :: '_' ::
        (parent ++ (',' :: ' ' :: (u ++ (idx ++ (')' :: tail)))))))
      = (own, ' ' :: '=' :: ' ' :: '(' :: '_' ::
        (parent ++ (',' :: ' ' :: (u ++ (idx ++ (')' :: tail)))))) :=
    takeStep_seg _ hodig (by decide)
  have el2 : litStep [' ', '=', ' ', '(', '_'] (' ' :: '=' :: ' ' :: '(' :: '_' ::
        (parent ++ (',' :: ' ' :: (u ++ (idx ++ (')' :: tail))))))
      = some (parent ++ (',' :: ' ' :: (u ++ (idx ++ (')' :: tail))))) :=
    litStep_eq_some.mpr rfl
  have e3 : takeStep Char.isDigit (parent ++ (',' :: ' ' :: (u ++ (idx ++ (')' :: tail)))))
      = (parent, ',' :: ' ' :: (u ++ (idx ++ (')' :: tail)))) :=
    takeStep_seg _ hpdig (by decide)
  have el3 : litStep [',', ' '] (',' :: ' ' :: (u ++ (idx ++ (')' :: tail))))
      = some (u ++ (idx ++ (')' :: tail))) := litStep_eq_some.mpr rfl
  have e4 : takeStep Char.isDigit (idx ++ (')' :: tail)) = (idx, ')' :: tail) :=
    takeStep_seg _ hidig (by decide)
  have el4 : litStep [')'] (')' :: tail) = some tail := litStep_eq_some.mpr rfl
  unfold matchParseHeaderAt
  simp only [e1, el1, Option.some_bind, e2]
  rw [if_neg hone]
  simp only [el2, Option.some_bind, e3]
  rw [if_neg hpne]
  simp only [Option.some_bind, el3, hU, e4]
  rw [if_neg hine]
  simp only [el4, Option.some_bind]

lemma parse_header_of_matchAt {s : LC} {g : LC × LC × LC}
    (h : matchParseHeaderAt s = some g) : parse_header s = some g := by
  cases s with
  | nil =>
    rw [show matchParseHeaderAt ([] : LC) = none from by decide] at h
    exact absurd h (by simp)
  | cons c rest =>
    unfold parse_header
    rw [h]

lemma optStep_underscore {b : Bool} {idx X : LC} (hine : idx ≠ [])
    (hidig : ∀ ch ∈ idx, ch.isDigit = true) :
    optStep ['_'] ((if b then ['_'] else []) ++ (idx ++ X))
      = ((if b then ['_'] else []), idx ++ X) := by
  obtain ⟨i0, idx', hidx⟩ : ∃ i0 idx', idx = i0 :: idx' := by
    cases hx : idx with
    | nil => exact absurd hx hine
    | cons a l => exact ⟨a, l, rfl⟩
  cases hcu : b with
  | true =>
    simp only [if_true]
    unfold optStep
    rw [litStep_self ['_'] (idx ++ X)]
  | false =>
    simp only [Bool.false_eq_true, if_false, List.nil_append]
    unfold optStep
    rw [hidx]
    simp only [List.cons_append]
    rw [litStep_underscore_none (hidig i0 (by simp [hidx]))]

lemma splitOnceChar_left {a : LC} (b : LC) (h : '\n' ∉ a) :
    splitOnceChar '\n' (a ++ '\n' :: b) = some (a, b) := by
  induction a with
  | nil => simp [splitOnceChar]
  | cons c cs ih =>
    have hc : ¬ c = '\n' := fun hcon => h (by simp [hcon])
    have ih' := ih (fun hm => h (by simp [hm]))
    simp only [List.cons_append, splitOnceChar, List.append_eq]
    rw [if_neg (fun hcon => hc hcon), ih']
    rfl

lemma chunkRecords_foldr (pid : LC) (cs : List HChunk) :
    (chunkRecords pid cs).foldr (fun p acc => p.1 ++ p.2 ++ acc) [] = renderChunks pid cs := by
  induction cs with
  | nil => simp [chunkRecords, renderChunks]
  | cons c cs ih => simp [chunkRecords, renderChunks, List.append_assoc] at ih ⊢; rw [ih]

lemma matchHeaderAt_nil (pid : LC) : matchHeaderAt pid [] = none := rfl

lemma findHeaderMatch_nil (pid : LC) : findHeaderMatch pid [] = none := by
  unfold findHeaderMatch
  rw [matchHeaderAt_nil]

/-- C1: for every flattened body built from sibling header lines that all name
the same parent id `pid`, interleaved with arbitrary non-header text, the Block
Splitter (`print_nodes`, source lines 143-154) produces exactly the
`(header, body)` records of the chunks, in the order the headers appear
textually (the ids of the chunks are arbitrary, so textual order need not be
numeric order), and the concatenation of the produced headers and bodies
reconstructs the input exactly. -/
theorem claim_C1_block_splitter {pid : LC} (cs : List HChunk)
    (hpne : pid ≠ []) (hpdig : ∀ ch ∈ pid, ch.isDigit = true)
    (hcs : ∀ c ∈ cs, OkChunk pid c) :
    printNodesRecords (renderChunks pid cs) = .ok (chunkRecords pid cs)
      ∧ (chunkRecords pid cs).foldr (fun p acc => p.1 ++ p.2 ++ acc) []
          = renderChunks pid cs := by
  refine ⟨?_, chunkRecords_foldr pid cs⟩
  have hnl : '\n' ∉ pid := fun hm => absurd (hpdig '\n' hm) (by decide)
  cases cs with
  | nil => rfl
  | cons c cs' =>
    have hok : OkChunk pid c := hcs c (by simp)
    obtain ⟨hsp, hone, hodig, hine, hidig, _, _⟩ := hok
    have hHdr : renderChunks pid (c :: cs')
        = (c.sp ++ ['_'] ++ c.own ++ [' ', '=', ' ', '(', '_'] ++ pid ++ [',', ' ']
            ++ (if c.und then ['_'] else []) ++ c.idx ++ [')'])
          ++ '\n' :: (c.body ++ renderChunks pid cs') := by
      simp [renderChunks, renderHeader, List.append_assoc]
    have hnlh : '\n' ∉ (c.sp ++ ['_'] ++ c.own ++ [' ', '=', ' ', '(', '_'] ++ pid
        ++ [',', ' '] ++ (if c.und then ['_'] else []) ++ c.idx ++ [')']) := by
      intro hm
      simp only [List.mem_append] at hm
      rcases hm with ((((((((hm | hm) | hm) | hm) | hm) | hm) | hm) | hm) | hm)
      · exact absurd (hsp '\n' hm) (by decide)
      · exact absurd hm (by decide)
      · exact absurd (hodig '\n' hm) (by decide)
      · exact absurd hm (by decide)
      · exact absurd (hpdig '\n' hm) (by decide)
      · exact absurd hm (by decide)
      · cases hcu : c.und with
        | true => rw [hcu] at hm; exact absurd hm (by decide)
        | false => rw [hcu] at hm; exact absurd hm (by decide)
      · exact absurd (hidig '\n' hm) (by decide)
      · exact absurd hm (by decide)
    have hsplit := splitOnceChar_left (c.body ++ renderChunks pid cs') hnlh
    have hmatch : matchParseHeaderAt (c.sp ++ ['_'] ++ c.own ++ [' ', '=', ' ', '(', '_']
        ++ pid ++ [',', ' '] ++ (if c.und then ['_'] else []) ++ c.idx ++ [')'])
        = some (c.own, pid, c.idx) := by
      have hshape : c.sp ++ ['_'] ++ c.own ++ [' ', '=', ' ', '(', '_'] ++ pid ++ [',', ' ']
          ++ (if c.und then ['_'] else []) ++ c.idx ++ [')']
          = c.sp ++ ('_' :: (c.own ++ (' ' :: '=' :: ' ' :: '(' :: '_' ::
            (pid ++ (',' :: ' ' :: ((if c.und then ['_'] else [])
              ++ (c.idx ++ (')' :: [])))))))) := by
        simp [List.append_assoc]
      rw [hshape]
      exact matchParseHeaderAt_render_aux [] hsp hone hodig hpne hpdig hine hidig
        (optStep_underscore hine hidig)
    have hparse := parse_header_of_matchAt hmatch
    have hrecs := reSplitHeader_renderChunks hnl (c :: cs') hcs []
      (findHeaderMatch_nil pid) (Or.inl rfl)
    rw [List.nil_append] at hrecs
    have hsplit2 : splitOnceChar '\n' (renderChunks pid (c :: cs'))
        = some (c.sp ++ ['_'] ++ c.own ++ [' ', '=', ' ', '(', '_'] ++ pid ++ [',', ' ']
            ++ (if c.und then ['_'] else []) ++ c.idx ++ [')'],
          c.body ++ renderChunks pid cs') := by
      rw [hHdr]; exact hsplit
    unfold printNodesRecords
    rw [hsplit2]
    simp only [hparse]
    rw [hrecs]

/-!  ## Writer, configuration and python-level errors

The output stream and indentation counter live in `DecompilerBase` (the `util`
module, not part of this repository's sources).  Modelled from the spec:
a writer abstraction exposing "emit current-indentation-prefixed line",
"increase/decrease indent"; `indentW` opens a new output line at the current
indentation depth and `writeW` appends text to the current line.  Lines are
kept most-recent-first.  The indentation counter is an integer, as python
integers do not truncate at zero.
-/

structure PWriter where
  indent_level : Int
  rev_lines : List (Int × LC)
deriving DecidableEq

/-- Modelled from the spec: `self.indent()` starts a fresh output line at the
current indentation depth. -/
def indentW (w : PWriter) : PWriter :=
  { w with rev_lines := (w.indent_level, []) :: w.rev_lines }

/-- Modelled from the spec: `self.write(s)` appends text to the current line. -/
def writeW (s : LC) (w : PWriter) : PWriter :=
  match w.rev_lines with
  | [] => { w with rev_lines := [(w.indent_level, s)] }
  | (lv, t) :: rest => { w with rev_lines := (lv, t ++ s) :: rest }

/-- The python statements `self.indent_level += d` / `-= d`. -/
def incLevel (d : Int) (w : PWriter) : PWriter :=
  { w with indent_level := w.indent_level + d }

@[simp] lemma indentW_level (w : PWriter) : (indentW w).indent_level = w.indent_level := rfl

@[simp] lemma writeW_level (s : LC) (w : PWriter) : (writeW s w).indent_level = w.indent_level := by
  unfold writeW
  cases w.rev_lines with
  | nil => rfl
  | cons p rest => obtain ⟨lv, t⟩ := p; rfl

@[simp] lemma incLevel_level (d : Int) (w : PWriter) :
    (incLevel d w).indent_level = w.indent_level + d := rfl

/-- A python exception escaping a printing routine (`.exn`), or exhaustion of
the recursion fuel of the interpreter (`.fuel`). -/
inductive Err where
  | exn : Err
  | fuel : Err
deriving DecidableEq

/-- The flags stored on the `SLDecompiler` instance (source lines 51-56). -/
structure Config where
  force_multiline_kwargs : Bool
  decompile_python : Bool
  decompile_screencode : Bool
  comparable : Bool
deriving DecidableEq

/-- Modelled from the spec: `simple_expression_guard` (from `util`, not in this
repository's sources) decides whether a raw expression needs defensive
parenthesization when re-embedded.  No claim depends on its decision, so it is
modelled as returning the expression unchanged. -/
def simple_expression_guard (e : LC) : LC := e

/-!  ## Argument Parser (`parse_args`, source lines 403-472)  -/

/-- Model of `count_trailing_slashes` (source lines 403-410). -/
def count_trailing_slashes (split : LC) : Nat :=
  (split.reverse.takeWhile (fun c => c = '\\')).length

/-- The bracket-isolation regex `re.match(r'.*?\((.*)\)', string)` of
`parse_args` (source line 421): the match exists exactly when the first `(`
has some `)` after it, and then the group is the text between the first `(`
and the last `)`. -/
def extractParens (s : LC) : Option LC :=
  let pre := s.takeWhile (fun c => ¬ c = '(')
  if pre.length = s.length then none
  else
    let afterFirst := s.drop (pre.length + 1)
    if ')' ∈ afterFirst then
      some ((afterFirst.reverse.dropWhile (fun c => ¬ c = ')')).tail.reverse)
    else none

/-- The quote / bracket aware splitting loop of `parse_args` (source lines
427-453).  The stack is kept top-first and starts as `[none]` (python
`[None]`); `none` is returned when python would raise an `IndexError` reading
`stack[-1]` after the bottom sentinel has been popped by unbalanced closers. -/
def splitArgsLoop : LC → List (Option Char) → LC → List LC → Option (List LC)
  | [], _, current_parse, acc => some (acc ++ [pyStrip current_parse])
  | ch :: rest, stack, current_parse, acc =>
    match stack with
    | [] => none
    | top :: stk =>
      let stack2 :=
        if ch = '\'' ∨ ch = '"' then
          if ¬ (top = some '\'' ∨ top = some '"') then some ch :: top :: stk
          else if some ch = top ∧ count_trailing_slashes current_parse % 2 = 0 then stk
          else top :: stk
        else if ¬ (top = some '\'' ∨ top = some '"') then
          if ch = '[' ∨ ch = '(' ∨ ch = '{' then some ch :: top :: stk
          else if ch = ']' ∨ ch = ')' ∨ ch = '}' then stk
          else top :: stk
        else top :: stk
      if stack2.length = 1 ∧ ch = ',' then
        splitArgsLoop rest stack2 [] (acc ++ [pyStrip current_parse])
      else
        splitArgsLoop rest stack2 (current_parse ++ [ch]) acc

/-- The keyword-argument test `re.match('^[a-zA-Z0-9_]+ *=[^=]', argument)`
(source line 462). -/
def isKwMatch (a : LC) : Bool :=
  let name := a.takeWhile (fun c => c.isAlphanum || c = '_')
  let r1 := a.dropWhile (fun c => c.isAlphanum || c = '_')
  let r2 := r1.dropWhile (fun c => c = ' ')
  match name, r2 with
  | [], _ => false
  | _ :: _, '=' :: c :: _ => ¬ c = '='
  | _ :: _, _ => false

/-- The classification loop of `parse_args` (source lines 455-470): kwargs by
the regex, `**`/`*` captures (last occurrence wins, python rebinding), and
positional arguments otherwise. -/
def classifyArgs : List LC → List LC → List (LC × LC) → Option LC → Option LC →
    List LC × List (LC × LC) × Option LC × Option LC
  | [], args, kwargs, exargs, exkwargs => (args, kwargs, exargs, exkwargs)
  | a :: rest, args, kwargs, exargs, exkwargs =>
    if isKwMatch a then
      match splitOnceChar '=' a with
      | some (name, value) =>
        classifyArgs rest args (kwargs ++ [(pyStrip name, pyStrip value)]) exargs exkwargs
      | none => classifyArgs rest args kwargs exargs exkwargs
    else if ['*', '*'].isPrefixOf a then
      classifyArgs rest args kwargs exargs (some (a.drop 2))
    else if ['*'].isPrefixOf a then
      classifyArgs rest args kwargs (some (a.drop 1)) exkwargs
    else
      classifyArgs rest (args ++ [a]) kwargs exargs exkwargs

/-- Model of `parse_args` (source lines 412-472). -/
def parse_args (s : LC) : Option (List LC × List (LC × LC) × Option LC × Option LC) :=
  let s := match extractParens s with
    | some inner => inner
    | none => s
  match splitArgsLoop s [none] [] [] with
  | none => none
  | some arguments => some (classifyArgs arguments [] [] none none)

/-!  ## Leaf printing routines  -/

/-- Model of `print_python` (source lines 234-255), the escape hatch.  The
`.error` case models the `StopIteration` of `next(...)` when no line has
non-whitespace content; it is proved unreachable under the branch condition. -/
def print_python (header code : LC) (w : PWriter) : Except Err PWriter :=
  let _ := header
  let w := indentW w
  if '\n' ∈ pyStrip code then
    let lines := splitlinesPy code
    match lines.find? (fun l => ¬ pyStrip l = []) with
    | none => .error .exn
    | some first =>
      let code_indent := first.length - (pyLStrip first).length
      let w := writeW "python:".data w
      let w := incLevel 1 w
      let w := lines.foldl (fun w line => writeW (line.drop code_indent) (indentW w)) w
      .ok (incLevel (-1) w)
  else .ok (writeW ("$ ".data ++ pyStrip code) w)

/-- Model of `print_condition` (source lines 199-218).  The `.error` cases are
the `IndexError` of `split(statement, 1)[1]` when the keyword is absent and
the `ValueError` of unpacking `condition.split(" in ", 1)` without `" in "`. -/
def print_condition (statement line : LC) (w : PWriter) : Except Err PWriter :=
  match splitOnceList statement (beforeLastChar ':' line) with
  | none => .error .exn
  | some (_, afterStmt) =>
    let condition := pyStrip afterStmt
    if statement = "for".data then
      match splitOnceList " in ".data condition with
      | none => .error .exn
      | some (loopVars, expression) =>
        let loopVars := pyStrip loopVars
        let loopVars :=
          if ['('].isPrefixOf loopVars ∧ [')'].isSuffixOf loopVars then
            (loopVars.drop 1).dropLast
          else loopVars
        let condition := loopVars ++ " in ".data ++ expression
        .ok (writeW (statement ++ [' '] ++ condition ++ [':']) w)
    else
      let condition := pyStrip condition
      let condition :=
        if ['('].isPrefixOf condition ∧ [')'].isSuffixOf condition then
          (condition.drop 1).dropLast
        else condition
      .ok (writeW (statement ++ [' '] ++ condition ++ [':']) w)

/-- Model of `print_arguments` (source lines 177-197).  Total: no path raises. -/
def print_arguments (cfg : Config) (args : List LC) (kwargs : List (LC × LC))
    (multiline : Bool) (w : PWriter) : PWriter :=
  let w :=
    if args ≠ [] then
      writeW ([' '] ++ List.intercalate [' '] (args.map simple_expression_guard)) w
    else w
  let kwargs := (kwargs.filter (fun p =>
      ¬ ((p.1 = "id".data ∧ ['_'].isPrefixOf p.2)
        ∨ (p.1 = "scope".data ∧ p.2 = "_scope".data)))).map
    (fun p => (p.1, simple_expression_guard p.2))
  if cfg.force_multiline_kwargs ∧ ¬ cfg.comparable ∧ kwargs ≠ [] then
    let w := writeW [':'] w
    let w := incLevel 1 w
    let w := kwargs.foldl (fun w p => writeW (p.1 ++ [' '] ++ p.2) (indentW w)) w
    incLevel (-1) w
  else
    let w := kwargs.foldl (fun w p => writeW ([' '] ++ p.1 ++ [' '] ++ p.2) w) w
    if multiline then writeW [':'] w else w

/-- Python truthiness of the optional variadic captures of `parse_args`: both
`None` and the empty string are falsy. -/
def truthy : Option LC → Bool
  | none => false
  | some s => ¬ s.isEmpty

/-- Model of `print_use` (source lines 310-332).  The `.error` cases are the
stack underflow of `parse_args` and the `IndexError` of `args.pop(0)` on an
empty argument list. -/
def print_use (header code : LC) (w : PWriter) : Except Err PWriter :=
  let _ := header
  match parse_args (pyStrip code) with
  | none => .error .exn
  | some (args, kwargs, exargs, exkwargs) =>
    let kwargs := kwargs.filter (fun p => ¬ (p.1 = "_scope".data ∨ p.1 = "_name".data))
    let w := indentW w
    match args with
    | [] => .error .exn
    | a0 :: args =>
      let name := (a0.drop 2).dropLast
      let w := writeW ("use ".data ++ name) w
      if args ≠ [] ∨ kwargs ≠ [] ∨ truthy exargs ∨ truthy exkwargs then
        let w := writeW ['('] w
        let arglist := args ++ kwargs.map (fun p => p.1 ++ ['='] ++ p.2)
          ++ (if truthy exargs then [['*'] ++ exargs.getD []] else [])
          ++ (if truthy exkwargs then [['*', '*'] ++ exkwargs.getD []] else [])
        let w := writeW (List.intercalate ", ".data arglist) w
        .ok (writeW [')'] w)
      else .ok w

/-- Model of `print_default` (source lines 335-340).  The `.error` cases are
`parse_args` underflow, `args[0]` / `args[1]` on short argument lists, and
`split("'", 1)[1]` when the first argument has no quote. -/
def print_default (header code : LC) (w : PWriter) : Except Err PWriter :=
  let _ := header
  match parse_args (pyStrip code) with
  | none => .error .exn
  | some (args, _, _, _) =>
    match args with
    | [] => .error .exn
    | a0 :: argsRest =>
      match splitOnceList ['\''] a0 with
      | none => .error .exn
      | some (_, afterQuote) =>
        let key := beforeLastChar '\'' afterQuote
        match argsRest with
        | [] => .error .exn
        | a1 :: _ =>
          .ok (writeW ("default ".data ++ key ++ " = ".data ++ a1) (indentW w))

/-- Model of `print_hotspot` (source lines 343-348). -/
def print_hotspot (cfg : Config) (header code : LC) (w : PWriter) : Except Err PWriter :=
  let _ := header
  let line := match splitOnceChar '\n' code with
    | some (a, _) => a
    | none => code
  let w := writeW "hotspot".data (indentW w)
  match parse_args line with
  | none => .error .exn
  | some (args, kwargs, _, _) => .ok (print_arguments cfg args kwargs true w)

/-!  ## Statement Dispatcher and the recursive printing routines

`dispatch` is the class-level registry filled by the `dispatch[...] = ...`
assignments (source lines 291, 308, 333, 341, 349, 364-389), in source order.
Handlers that recurse (`print_if`, `print_for`, `print_ui`, and through them
`print_nodes`, `print_node`, `print_block`) are interpreted by the
fuel-indexed `run` below; one unit of fuel is consumed at every call, and
`.error .fuel` marks exhaustion.
-/

inductive Handler where
  | hIf : Handler
  | hFor : Handler
  | hUse : Handler
  | hDefault : Handler
  | hHotspot : Handler
  | hUi : Handler
deriving DecidableEq

def dispatch : List (String × Handler) :=
  [("if", .hIf), ("for", .hFor),
   ("renpy.use_screen", .hUse), ("_scope.setdefault", .hDefault),
   ("ui.hotspot_with_child", .hHotspot),
   ("ui.add", .hUi), ("ui.imagebutton", .hUi), ("ui.input", .hUi), ("ui.key", .hUi),
   ("ui.label", .hUi), ("ui.text", .hUi), ("ui.null", .hUi), ("ui.mousearea", .hUi),
   ("ui.textbutton", .hUi), ("ui.timer", .hUi), ("ui.bar", .hUi), ("ui.vbar", .hUi),
   ("ui.hotbar", .hUi), ("ui.button", .hUi), ("ui.frame", .hUi), ("ui.transform", .hUi),
   ("ui.viewport", .hUi), ("ui.window", .hUi), ("ui.drag", .hUi), ("ui.fixed", .hUi),
   ("ui.grid", .hUi), ("ui.hbox", .hUi), ("ui.side", .hUi), ("ui.vbox", .hUi),
   ("ui.imagemap", .hUi), ("ui.draggroup", .hUi)]

/-- The prefix lookup of `print_node` (source lines 169-174): the first
registry entry whose literal prefix starts the stripped body wins; `none`
falls through to the escape hatch. -/
def findHandler (reg : List (String × Handler)) (stripped : LC) : Option Handler :=
  (reg.find? (fun p => p.1.data.isPrefixOf stripped)).map (fun p => p.2)

/-- The leading index-increment artifact test
`re.match(r' *_[0-9]+ = 0', code)` of `print_node` (source line 166). -/
def matchForArtifact (code : LC) : Bool :=
  let r1 := code.dropWhile (fun c => c = ' ')
  match r1 with
  | '_' :: r2 =>
    let d := r2.takeWhile Char.isDigit
    ¬ d = [] ∧ " = 0".data.isPrefixOf (r2.dropWhile Char.isDigit)
  | _ => false

/-- One call frame of the mutually recursive printing routines. -/
inductive Call where
  | nodes (code : LC) (extra : Int) : Call
  | nodesLoop (pairs : List (LC × LC)) : Call
  | node (header code : LC) : Call
  | cIf (header code : LC) : Call
  | ifLoop (lines : List LC) (i total ifIndent : Nat) (current : List LC) : Call
  | cFor (header code : LC) : Call
  | cUi (header code : LC) : Call
  | block (blockLines : List LC) : Call

/-- The mutually recursive printing routines of the decompiler, interpreted on
fuel: `.nodes` is `print_nodes` (source lines 137-155), `.nodesLoop` its
dispatch loop, `.node` is `print_node` (157-174), `.cIf` is `print_if`
(257-291) with `.ifLoop` its branch-accumulation loop, `.cFor` is `print_for`
(293-308), `.cUi` is `print_ui` (351-363), and `.block` is `print_block`
(220-230). -/
def run : Nat → Config → Call → PWriter → Except Err PWriter
  | 0, _, _, _ => .error .fuel
  | Nat.succ f, cfg, call, w =>
    match call with
    | .nodes code extra =>
      match splitOnceChar '\n' code with
      | none => .ok w
      | some (header, _) =>
        match parse_header header with
        | none => .error .exn
        | some (_, parent_id, _) =>
          match run f cfg (.nodesLoop (reSplitHeader parent_id code).2) (incLevel extra w) with
          | .ok w2 => .ok (incLevel (-extra) w2)
          | .error e => .error e
    | .nodesLoop [] => .ok w
    | .nodesLoop ((h, b) :: rest) =>
      match run f cfg (.node h b) w with
      | .ok w2 => run f cfg (.nodesLoop rest) w2
      | .error e => .error e
    | .node header code =>
      match (if matchForArtifact code then
          match splitOnceChar '\n' code with
          | some (_, restOfCode) => Except.ok restOfCode
          | none => Except.error Err.exn
        else Except.ok code : Except Err LC) with
      | .error e => .error e
      | .ok code =>
        match findHandler dispatch (pyLStrip code) with
        | some .hIf => run f cfg (.cIf header code) w
        | some .hFor => run f cfg (.cFor header code) w
        | some .hUse => print_use header code w
        | some .hDefault => print_default header code w
        | some .hHotspot => print_hotspot cfg header code w
        | some .hUi => run f cfg (.cUi header code) w
        | none => print_python header code w
    | .cIf header code =>
      let lines := splitlinesPy code
      match lines.get? 1 with
      | none => .error .exn
      | some l1 =>
        if parse_header l1 = none then print_python header code w
        else
          let w := indentW w
          let l0 := lines.headD []
          let ifIndent := l0.length - (pyLStrip l0).length
          run f cfg (.ifLoop lines 0 lines.length ifIndent []) w
    | .ifLoop [] _ _ _ _ => .ok w
    | .ifLoop (line :: rest) i total ifIndent current =>
      if i = 0 then
        match print_condition "if".data line w with
        | .ok w2 => run f cfg (.ifLoop rest (i + 1) total ifIndent current) w2
        | .error e => .error e
      else if "elif".data.isPrefixOf (line.drop ifIndent) then
        match run f cfg (.block current) w with
        | .ok w2 =>
          match print_condition "elif".data line (indentW w2) with
          | .ok w3 => run f cfg (.ifLoop rest (i + 1) total ifIndent []) w3
          | .error e => .error e
        | .error e => .error e
      else if "else".data.isPrefixOf (line.drop ifIndent) then
        match run f cfg (.block current) w with
        | .ok w2 => run f cfg (.ifLoop rest (i + 1) total ifIndent [])
            (writeW "else:".data (indentW w2))
        | .error e => .error e
      else if i = total - 1 then
        match run f cfg (.block (current ++ [line])) w with
        | .ok w2 => run f cfg (.ifLoop rest (i + 1) total ifIndent (current ++ [line])) w2
        | .error e => .error e
      else run f cfg (.ifLoop rest (i + 1) total ifIndent (current ++ [line])) w
    | .cFor header code =>
      let lines := splitlinesPy code
      match lines.get? 1 with
      | none => .error .exn
      | some l1 =>
        if parse_header l1 = none then print_python header code w
        else
          let w := indentW w
          match print_condition "for".data (lines.headD []) w with
          | .ok w2 => run f cfg (.block ((lines.drop 1).dropLast)) w2
          | .error e => .error e
    | .cUi _ code =>
      let lineBlk : LC × LC := match splitOnceChar '\n' code with
        | some (a, b) => (a, b)
        | none => (code, [])
      match splitOnceList "ui.".data lineBlk.1 with
      | none => .error .exn
      | some (_, afterUi) =>
        let name := match splitOnceList ['('] afterUi with
          | some (a, _) => a
          | none => afterUi
        let w := writeW name (indentW w)
        match parse_args lineBlk.1 with
        | none => .error .exn
        | some (args, kwargs, _, _) =>
          let blk := match splitOnceChar '\n' lineBlk.2 with
            | some (firstB, restB) =>
              if containsSub "ui.child_or_fixed()".data firstB then restB else lineBlk.2
            | none =>
              if containsSub "ui.child_or_fixed()".data lineBlk.2 then [] else lineBlk.2
          let w := print_arguments cfg args kwargs (¬ blk = []) w
          run f cfg (.nodes blk 1) w
    | .block blockLines =>
      if 2 < blockLines.length ∧ (parse_header (blockLines.headD [])).isSome
          ∧ (parse_header (blockLines.getD 1 [])).isSome then
        run f cfg (.nodes (List.intercalate ['\n'] (blockLines.drop 1)) 1) w
      else if 1 < blockLines.length ∧ (parse_header (blockLines.headD [])).isSome then
        run f cfg (.nodes (List.intercalate ['\n'] blockLines) 1) w
      else
        .ok (incLevel (-1) (writeW "pass".data (indentW (incLevel 1 w))))

/-!  ## Screen Preamble Printer (`print_screen`, source lines 67-135)  -/

/-- The screen statement object consumed by `print_screen`.  `parameters` is
the already-rendered parameter list (modelled from the spec:
`reconstruct_paraminfo` is a collaborator outside this repository's sources
that renders the parameter list to text, so the rendered text is taken as the
input).  `zorder` / `modal` / `variant` are `some` exactly when the stored
value is a unicode string (user supplied), matching the `isinstance(value,
unicode)` sentinel test.  `code` is the flattened body text (modelled from the
spec: `codegen.to_source` is the external code-generation collaborator that
renders `ast.code.source`; its output text is taken as the input). -/
structure ScreenAst where
  name : LC
  parameters : Option LC
  zorder : Option LC
  modal : Option LC
  variant : Option LC
  tag : Option LC
  code : LC
deriving DecidableEq

/-- Modelled from the spec: `WordConcatenator` (from `util`, not in this
repository's sources) packs words onto one line preserving spacing; it is
modelled as a list of words, appended words that are empty being dropped, and
joined with single spaces and a leading space when non-empty (it is built with
`needs_space=True`). -/
def wcJoin (words : List LC) : LC :=
  (words.map (fun wd => [' '] ++ wd)).foldr (fun a b => a ++ b) []

/-- The zorder/modal/variant packing loop of `print_screen` (source lines
83-94).  Returns the words for the screen line and the clauses for separate
lines; `none` models the `IndexError` of `value[-1]` on an empty user value. -/
def screenKwLoop : List (LC × Option LC) → List LC × List LC → Option (List LC × List LC)
  | [], acc => some acc
  | (_, none) :: rest, acc => screenKwLoop rest acc
  | (key, some value) :: rest, (wcw, sep) =>
    match value.getLast? with
    | none => none
    | some lastC =>
      let guarded := simple_expression_guard value
      if ¬ lastC = ' ' ∨ ¬ guarded = pyStrip value then
        screenKwLoop rest (wcw, sep ++ [key ++ [' '] ++ guarded])
      else
        screenKwLoop rest (wcw ++ [key, value].filter (fun wd => ¬ wd = []), sep)

/-- The `ui.close()` line filter of `print_screen` (source lines 117-118). -/
def filterClose (code : LC) : LC :=
  List.intercalate ['\n']
    ((splitlinesPy code).filter (fun line => ¬ pyStrip line = "ui.close()".data))

/-- Model of `print_screen` (source lines 67-135). -/
def print_screen (fuel : Nat) (cfg : Config) (ast : ScreenAst) (w : PWriter) :
    Except Err PWriter :=
  let w := writeW ("screen ".data ++ ast.name) (indentW w)
  let w := match ast.parameters with
    | some ps => writeW ps w
    | none => w
  match screenKwLoop [("zorder".data, ast.zorder), ("modal".data, ast.modal),
      ("variant".data, ast.variant)] ([], []) with
  | none => .error .exn
  | some (wcw, sep) =>
    let wcw2 := match sep with
      | s :: _ => wcw ++ [s].filter (fun wd => ¬ wd = [])
      | [] => wcw
    let sep := match sep with
      | _ :: rest => rest
      | [] => []
    let w := writeW (wcJoin wcw2 ++ [':']) w
    let w := incLevel 1 w
    let w := sep.foldl (fun w i => writeW i (indentW w)) w
    let w := match ast.tag with
      | some t => if ¬ t = [] then writeW ("tag ".data ++ t) (indentW w) else w
      | none => w
    if ¬ cfg.decompile_python then
      .ok (writeW "pass # Screen code not extracted".data (indentW w))
    else
      let code := ast.code
      if cfg.decompile_screencode then
        match run fuel cfg (.nodes (filterClose code) 0) w with
        | .ok w2 => .ok (incLevel (-1) w2)
        | .error e => .error e
      else
        let w := incLevel 1 (writeW "python:".data (indentW w))
        let w := ((splitlinesPy code).drop 1).foldl
          (fun w line => writeW line (indentW w)) w
        .ok (incLevel (-1) (incLevel (-1) w))

/-!  ## Indentation balance  -/

lemma foldl_level {α : Type} (f : PWriter → α → PWriter)
    (hf : ∀ w a, (f w a).indent_level = w.indent_level) (l : List α) (w : PWriter) :
    (l.foldl f w).indent_level = w.indent_level := by
  induction l generalizing w with
  | nil => rfl
  | cons a l ih => simp [List.foldl_cons, ih, hf]

@[simp] lemma foldl_writeW_indentW_level {α : Type} (g : α → LC) (l : List α) (w : PWriter) :
    (List.foldl (fun w a => writeW (g a) (indentW w)) w l).indent_level = w.indent_level :=
  foldl_level _ (by intro w a; simp) l w

@[simp] lemma foldl_writeW_level {α : Type} (g : α → LC) (l : List α) (w : PWriter) :
    (List.foldl (fun w a => writeW (g a) w) w l).indent_level = w.indent_level :=
  foldl_level _ (by intro w a; simp) l w

lemma print_python_level {header code : LC} {w w' : PWriter}
    (h : print_python header code w = .ok w') : w'.indent_level = w.indent_level := by
  unfold print_python at h
  dsimp only at h
  split at h
  · split at h
    · exact absurd h (by simp)
    · rw [Except.ok.injEq] at h
      subst h
      simp
  · rw [Except.ok.injEq] at h
    subst h
    simp

lemma print_condition_level {statement line : LC} {w w' : PWriter}
    (h : print_condition statement line w = .ok w') : w'.indent_level = w.indent_level := by
  unfold print_condition at h
  dsimp only at h
  split at h
  · exact absurd h (by simp)
  · split at h
    · split at h
      · exact absurd h (by simp)
      · rw [Except.ok.injEq] at h
        subst h
        simp
    · rw [Except.ok.injEq] at h
      subst h
      simp

lemma print_arguments_level (cfg : Config) (args : List LC) (kwargs : List (LC × LC))
    (multiline : Bool) (w : PWriter) :
    (print_arguments cfg args kwargs multiline w).indent_level = w.indent_level := by
  unfold print_arguments
  dsimp only
  split
  · split <;> (simp; try omega)
  · split <;> split <;> simp

lemma print_use_level {header code : LC} {w w' : PWriter}
    (h : print_use header code w = .ok w') : w'.indent_level = w.indent_level := by
  unfold print_use at h
  dsimp only at h
  split at h
  · exact absurd h (by simp)
  · split at h
    · exact absurd h (by simp)
    · split at h
      · rw [Except.ok.injEq] at h
        subst h
        simp
      · rw [Except.ok.injEq] at h
        subst h
        simp

lemma print_default_level {header code : LC} {w w' : PWriter}
    (h : print_default header code w = .ok w') : w'.indent_level = w.indent_level := by
  unfold print_default at h
  dsimp only at h
  split at h
  · exact absurd h (by simp)
  · split at h
    · exact absurd h (by simp)
    · split at h
      · exact absurd h (by simp)
      · split at h
        · exact absurd h (by simp)
        · rw [Except.ok.injEq] at h
          subst h
          simp

lemma print_hotspot_level {cfg : Config} {header code : LC} {w w' : PWriter}
    (h : print_hotspot cfg header code w = .ok w') : w'.indent_level = w.indent_level := by
  unfold print_hotspot at h
  dsimp only at h
  split at h
  · exact absurd h (by simp)
  · rw [Except.ok.injEq] at h
    subst h
    simp [print_arguments_level]

/-- Indentation balance of the recursive routines: every successful call of
the interpreter leaves the indentation counter exactly where it found it. -/
lemma run_level : ∀ (fuel : Nat) (cfg : Config) (call : Call) (w w' : PWriter),
    run fuel cfg call w = .ok w' → w'.indent_level = w.indent_level := by
  intro fuel
  induction fuel with
  | zero => intro cfg call w w' h; exact absurd h (by simp [run])
  | succ f ih =>
    intro cfg call w w' h
    cases call with
    | nodes code extra =>
      simp only [run] at h
      split at h
      · rw [Except.ok.injEq] at h; subst h; rfl
      · split at h
        · exact absurd h (by simp)
        · split at h
          next w2 hrun =>
            rw [Except.ok.injEq] at h
            subst h
            have := ih cfg _ _ _ hrun
            simp at this ⊢
            omega
          next => exact absurd h (by simp)
    | nodesLoop pairs =>
      cases pairs with
      | nil =>
        simp only [run] at h
        rw [Except.ok.injEq] at h; subst h; rfl
      | cons p rest =>
        obtain ⟨ph, pb⟩ := p
        simp only [run] at h
        split at h
        next w2 hrun =>
          have h1 := ih cfg _ _ _ hrun
          have h2 := ih cfg _ _ _ h
          rw [h2, h1]
        next => exact absurd h (by simp)
    | node header code =>
      simp only [run] at h
      split at h
      · exact absurd h (by simp)
      · split at h
        · exact ih cfg _ _ _ h
        · exact ih cfg _ _ _ h
        · exact print_use_level h
        · exact print_default_level h
        · exact print_hotspot_level h
        · exact ih cfg _ _ _ h
        · exact print_python_level h
    | cIf header code =>
      simp only [run] at h
      split at h
      · exact absurd h (by simp)
      · split at h
        · exact print_python_level h
        · have := ih cfg _ _ _ h
          simpa using this
    | ifLoop lines i total ifIndent current =>
      cases lines with
      | nil =>
        simp only [run] at h
        rw [Except.ok.injEq] at h; subst h; rfl
      | cons line rest =>
        simp only [run] at h
        split at h
        · split at h
          next w2 hcond =>
            rw [ih cfg _ _ _ h, print_condition_level hcond]
          next => exact absurd h (by simp)
        · split at h
          · split at h
            next w2 hblock =>
              split at h
              next w3 hcond =>
                have h3 := print_condition_level hcond
                simp at h3
                rw [ih cfg _ _ _ h, h3]
                exact ih cfg _ _ _ hblock
              next => exact absurd h (by simp)
            next => exact absurd h (by simp)
          · split at h
            · split at h
              next w2 hblock =>
                have h2 := ih cfg _ _ _ hblock
                have h3 := ih cfg _ _ _ h
                simp at h3
                rw [h3, h2]
              next => exact absurd h (by simp)
            · split at h
              · split at h
                next w2 hblock =>
                  rw [ih cfg _ _ _ h, ih cfg _ _ _ hblock]
                next => exact absurd h (by simp)
              · exact ih cfg _ _ _ h
    | cFor header code =>
      simp only [run] at h
      split at h
      · exact absurd h (by simp)
      · split at h
        · exact print_python_level h
        · split at h
          next w2 hcond =>
            have h2 := print_condition_level hcond
            simp at h2
            rw [ih cfg _ _ _ h, h2]
          next => exact absurd h (by simp)
    | cUi header code =>
      simp only [run] at h
      split at h
      · exact absurd h (by simp)
      · split at h
        · exact absurd h (by simp)
        · have := ih cfg _ _ _ h
          rw [this]
          simp [print_arguments_level]
    | block blockLines =>
      simp only [run] at h
      split at h
      · exact ih cfg _ _ _ h
      · split at h
        · exact ih cfg _ _ _ h
        · rw [Except.ok.injEq] at h
          subst h
          simp only [incLevel_level, writeW_level, indentW_level]
          omega

/-!  ## Totality of the escape hatch, and line membership lemmas  -/

lemma splitOnceChar_eq_none {sep : Char} {l : LC} (h : sep ∉ l) :
    splitOnceChar sep l = none := by
  induction l with
  | nil => rfl
  | cons c rest ih =>
    have hc : ¬ c = sep := fun hcon => h (by simp [hcon])
    simp only [splitOnceChar, if_neg hc, ih (fun hm => h (by simp [hm])), Option.map_none']

lemma pyLStrip_eq_nil_iff {l : LC} : pyLStrip l = [] ↔ ∀ c ∈ l, pySpace c = true := by
  simp [pyLStrip, List.dropWhile_eq_nil_iff]

lemma pyRStrip_eq_nil_iff {l : LC} : pyRStrip l = [] ↔ ∀ c ∈ l, pySpace c = true := by
  simp [pyRStrip, List.dropWhile_eq_nil_iff]

lemma pyStrip_eq_nil_iff {l : LC} : pyStrip l = [] ↔ ∀ c ∈ l, pySpace c = true := by
  unfold pyStrip
  rw [pyRStrip_eq_nil_iff]
  constructor
  · intro h c hc
    by_cases hsp : pySpace c = true
    · exact hsp
    · have hmem : c ∈ pyLStrip l := by
        unfold pyLStrip
        have hl := List.takeWhile_append_dropWhile (p := pySpace) (l := l)
        rcases (List.mem_append.mp (hl ▸ hc)) with hm | hm
        · exact absurd (List.mem_takeWhile_imp hm) hsp
        · exact hm
      exact h c hmem
  · intro h c hc
    exact h c ((List.dropWhile_suffix pySpace).subset hc)

lemma mem_splitChar_of_mem {sep c : Char} {s : LC} (hc : c ∈ s) (hne : ¬ c = sep) :
    ∃ l ∈ splitChar sep s, c ∈ l := by
  induction s with
  | nil => exact absurd hc (by simp)
  | cons d rest ih =>
    rcases List.mem_cons.mp hc with hf | hf
    · subst hf
      cases hsc : splitChar sep rest with
      | nil =>
        rw [show splitChar sep (c :: rest) = if c = sep then [[], []] else [[c]] from by
          simp [splitChar, hsc]]
        rw [if_neg hne]
        exact ⟨[c], by simp⟩
      | cons p ps =>
        rw [show splitChar sep (c :: rest)
            = if c = sep then [] :: p :: ps else (c :: p) :: ps from by simp [splitChar, hsc]]
        rw [if_neg hne]
        exact ⟨c :: p, by simp⟩
    · obtain ⟨l, hl, hcl⟩ := ih hf
      cases hsc : splitChar sep rest with
      | nil => rw [hsc] at hl; exact absurd hl (by simp)
      | cons p ps =>
        rw [hsc] at hl
        rw [show splitChar sep (d :: rest)
            = if d = sep then [] :: p :: ps else (d :: p) :: ps from by simp [splitChar, hsc]]
        rcases List.mem_cons.mp hl with hp | hp
        · subst hp
          split
          · exact ⟨l, by simp, hcl⟩
          · exact ⟨d :: l, by simp, by simp [hcl]⟩
        · split
          · exact ⟨l, by simp [hp], hcl⟩
          · exact ⟨l, by simp [hp], hcl⟩

lemma mem_splitlinesPy_of_mem {c : Char} {s : LC} (hc : c ∈ s) (hne : ¬ c = '\n') :
    ∃ l ∈ splitlinesPy s, c ∈ l := by
  obtain ⟨l, hl, hcl⟩ := mem_splitChar_of_mem hc hne
  have hsne : ¬ s = [] := by
    intro hcon
    subst hcon
    exact absurd hc (by simp)
  unfold splitlinesPy
  rw [if_neg hsne]
  dsimp only
  split
  next hlast =>
    have hlne : ¬ l = [] := fun hcon => by subst hcon; exact absurd hcl (by simp)
    have hpne : splitChar '\n' s ≠ [] := fun hcon => by rw [hcon] at hl; exact absurd hl (by simp)
    refine ⟨l, ?_, hcl⟩
    have hsplit := List.dropLast_append_getLast hpne
    have hgl : (splitChar '\n' s).getLast hpne = [] := by
      have := List.getLast?_eq_getLast _ hpne
      rw [this] at hlast
      exact (Option.some.injEq _ _).mp hlast.symm |>.symm
    rcases List.mem_append.mp (hsplit ▸ hl) with hm | hm
    · exact hm
    · rw [List.mem_singleton] at hm
      rw [hgl] at hm
      exact absurd hm hlne
  next => exact ⟨l, hl, hcl⟩

lemma print_python_find_some {code : LC} (h : '\n' ∈ pyStrip code) :
    ∃ first, (splitlinesPy code).find? (fun l => ¬ pyStrip l = []) = some first := by
  have hne : pyStrip code ≠ [] := fun hcon => by rw [hcon] at h; exact absurd h (by simp)
  have hex : ∃ c ∈ code, ¬ pySpace c = true := by
    by_contra hcon
    push_neg at hcon
    exact hne (pyStrip_eq_nil_iff.mpr (by simpa using hcon))
  obtain ⟨c, hc, hcs⟩ := hex
  have hcne : ¬ c = '\n' := fun hcon => by subst hcon; exact hcs (by decide)
  obtain ⟨l, hl, hcl⟩ := mem_splitlinesPy_of_mem hc hcne
  have hlp : ¬ pyStrip l = [] := fun hcon => hcs (pyStrip_eq_nil_iff.mp hcon c hcl)
  cases hf : (splitlinesPy code).find? (fun l => ¬ pyStrip l = []) with
  | some first => exact ⟨first, rfl⟩
  | none =>
    have := List.find?_eq_none.mp hf l hl
    simp [hlp] at this

lemma print_python_ok (header code : LC) (w : PWriter) :
    ∃ w', print_python header code w = .ok w' := by
  unfold print_python
  dsimp only
  split
  next hml =>
    obtain ⟨first, hfind⟩ := print_python_find_some hml
    rw [hfind]
    exact ⟨_, rfl⟩
  next => exact ⟨_, rfl⟩

lemma splitChar_cons (sep c : Char) (rest : LC) :
    splitChar sep (c :: rest)
      = match splitChar sep rest with
        | [] => if c = sep then [[], []] else [[c]]
        | p :: ps => if c = sep then [] :: p :: ps else (c :: p) :: ps := rfl

lemma splitChar_ne_nil (sep : Char) (l : LC) : splitChar sep l ≠ [] := by
  cases l with
  | nil => simp [splitChar]
  | cons c rest =>
    rw [splitChar_cons]
    split <;> split <;> simp

lemma splitChar_no_sep {sep : Char} {l : LC} (h : sep ∉ l) : splitChar sep l = [l] := by
  induction l with
  | nil => rfl
  | cons c rest ih =>
    have hc : ¬ c = sep := fun hcon => h (by simp [hcon])
    have ih' := ih (fun hm => h (by simp [hm]))
    rw [splitChar_cons, ih']
    simp [hc]

lemma splitChar_cons_sep {sep : Char} {a : LC} (b : LC) (h : sep ∉ a) :
    splitChar sep (a ++ sep :: b) = a :: splitChar sep b := by
  induction a with
  | nil =>
    simp only [List.nil_append]
    rw [splitChar_cons]
    cases hsc : splitChar sep b with
    | nil => exact absurd hsc (splitChar_ne_nil sep b)
    | cons p ps => simp [← hsc]
  | cons c rest ih =>
    have hc : ¬ c = sep := fun hcon => h (by simp [hcon])
    have ih' := ih (fun hm => h (by simp [hm]))
    simp only [List.cons_append]
    rw [splitChar_cons, ih']
    simp [hc]

lemma splitChar_intercalate {ls : List LC} (hne : ls ≠ [])
    (hnl : ∀ x ∈ ls, '\n' ∉ x) : splitChar '\n' (List.intercalate ['\n'] ls) = ls := by
  induction ls with
  | nil => exact absurd rfl hne
  | cons x rest ih =>
    cases rest with
    | nil =>
      have hx1 : List.intercalate ['\n'] [x] = x := by
        simp [List.intercalate, List.intersperse]
      rw [hx1]
      exact splitChar_no_sep (hnl x (by simp))
    | cons y rest2 =>
      have hx : List.intercalate ['\n'] (x :: y :: rest2)
          = x ++ '\n' :: List.intercalate ['\n'] (y :: rest2) := by
        simp [List.intercalate, List.intersperse]
      rw [hx, splitChar_cons_sep _ (hnl x (by simp))]
      rw [ih (by simp) (fun z hz => hnl z (by simp [hz]))]

lemma mem_splitChar_no_sep {sep : Char} {s : LC} : ∀ l ∈ splitChar sep s, sep ∉ l := by
  induction s with
  | nil => intro l hl; rw [show splitChar sep [] = [[]] from rfl] at hl; simp at hl; simp [hl]
  | cons c rest ih =>
    intro l hl
    rw [splitChar_cons] at hl
    cases hsc : splitChar sep rest with
    | nil => exact absurd hsc (splitChar_ne_nil sep rest)
    | cons p ps =>
      rw [hsc] at hl
      dsimp only at hl
      by_cases hc : c = sep
      · rw [if_pos hc] at hl
        rcases List.mem_cons.mp hl with hm | hm
        · simp [hm]
        · exact ih l (by rw [hsc]; exact hm)
      · rw [if_neg hc] at hl
        rcases List.mem_cons.mp hl with hm | hm
        · subst hm
          intro hcon
          rcases List.mem_cons.mp hcon with hm2 | hm2
          · exact hc hm2.symm
          · exact ih p (by rw [hsc]; exact List.mem_cons_self p ps) hm2
        · exact ih l (by rw [hsc]; exact List.mem_cons_of_mem p hm)

lemma mem_splitlinesPy_no_nl {s : LC} : ∀ l ∈ splitlinesPy s, '\n' ∉ l := by
  intro l hl
  unfold splitlinesPy at hl
  split at hl
  · exact absurd hl (by simp)
  · dsimp only at hl
    split at hl
    · exact mem_splitChar_no_sep l (List.dropLast_subset _ hl)
    · exact mem_splitChar_no_sep l hl

lemma mem_splitlinesPy_intercalate {ls : List LC} (hnl : ∀ x ∈ ls, '\n' ∉ x) :
    ∀ l ∈ splitlinesPy (List.intercalate ['\n'] ls), l ∈ ls := by
  intro l hl
  by_cases hne : ls = []
  · subst hne
    rw [show List.intercalate ['\n'] ([] : List LC) = [] from rfl] at hl
    exact absurd hl (by simp [splitlinesPy])
  · unfold splitlinesPy at hl
    split at hl
    · exact absurd hl (by simp)
    · dsimp only at hl
      rw [splitChar_intercalate hne hnl] at hl
      split at hl
      · exact List.dropLast_subset _ hl
      · exact hl

/-!  ## Soundness of the Header Codec  -/

/-- The header pattern occurring as a substring: what `re.search` of the
`parse_header` pattern accepts, stated as an explicit decomposition (the
optional leading spaces and trailing ` *\n?` parts of the pattern are
absorbed by the arbitrary surrounding text `a` and `b`). -/
def HeaderShaped (s own parent idx : LC) : Prop :=
  ∃ a us b,
    (us = [] ∨ us = ['_'])
    ∧ own ≠ [] ∧ (∀ ch ∈ own, ch.isDigit = true)
    ∧ ((parent ≠ [] ∧ ∀ ch ∈ parent, ch.isDigit = true) ∨ parent = ['n', 'a', 'm', 'e'])
    ∧ idx ≠ [] ∧ (∀ ch ∈ idx, ch.isDigit = true)
    ∧ s = a ++ ['_'] ++ own ++ [' ', '=', ' ', '(', '_'] ++ parent ++ [',', ' ']
        ++ us ++ idx ++ [')'] ++ b

lemma optStep_fst (lit s : LC) : (optStep lit s).1 = lit ∨ (optStep lit s).1 = [] := by
  unfold optStep
  cases litStep lit s <;> simp

lemma matchParseHeaderAt_sound {s own parent idx : LC}
    (h : matchParseHeaderAt s = some (own, parent, idx)) :
    HeaderShaped s own parent idx := by
  unfold matchParseHeaderAt at h
  simp only [Option.bind_eq_some] at h
  obtain ⟨r2, h1, h⟩ := h
  split at h
  case isTrue => exact absurd h (by simp)
  case isFalse hd1 =>
    simp only [Option.bind_eq_some] at h
    obtain ⟨r4, h3, pr, hpr, r6, h5, h⟩ := h
    split at h
    case isTrue => exact absurd h (by simp)
    case isFalse hd3 =>
      simp only [Option.bind_eq_some, Option.some.injEq, Prod.mk.injEq] at h
      obtain ⟨rr, h8, ho, hp, hi⟩ := h
      have hparent : r4 = parent ++ pr.2
          ∧ ((parent ≠ [] ∧ ∀ ch ∈ parent, ch.isDigit = true) ∨ parent = ['n', 'a', 'm', 'e']) := by
        split at hpr
        case isTrue =>
          simp only [Option.map_eq_some'] at hpr
          obtain ⟨r5, hlit, hpr2⟩ := hpr
          have := litStep_eq_some.mp hlit
          subst hpr2
          rw [← hp]
          exact ⟨this, Or.inr rfl⟩
        case isFalse hne =>
          rw [Option.some.injEq] at hpr
          subst hpr
          rw [← hp]
          refine ⟨takeStep_decomp Char.isDigit r4, Or.inl ⟨by simpa using hne, ?_⟩⟩
          exact fun ch hc => takeStep_all Char.isDigit r4 ch hc
      refine ⟨(takeStep (fun c => c = ' ') s).1, (optStep ['_'] r6).1, rr,
        (optStep_fst ['_'] r6).symm, ?_, ?_, hparent.2, ?_, ?_, ?_⟩
      · rw [← ho]; exact hd1
      · rw [← ho]; exact fun ch hc => takeStep_all Char.isDigit r2 ch hc
      · rw [← hi]; exact hd3
      · rw [← hi]; exact fun ch hc => takeStep_all Char.isDigit _ ch hc
      · conv_lhs => rw [takeStep_decomp (fun c => c = ' ') s]
        rw [litStep_eq_some.mp h1]
        conv_lhs => rw [takeStep_decomp Char.isDigit r2]
        rw [litStep_eq_some.mp h3, hparent.1, litStep_eq_some.mp h5]
        conv_lhs => rw [optStep_decomp ['_'] r6]
        conv_lhs => rw [takeStep_decomp Char.isDigit (optStep ['_'] r6).2]
        rw [litStep_eq_some.mp h8, ← ho, ← hi]
        simp [List.append_assoc]

lemma parse_header_sound {s own parent idx : LC}
    (h : parse_header s = some (own, parent, idx)) : HeaderShaped s own parent idx := by
  induction s with
  | nil => exact absurd h (by simp [parse_header])
  | cons c rest ih =>
    unfold parse_header at h
    cases hm : matchParseHeaderAt (c :: rest) with
    | some g =>
      rw [hm] at h
      rw [Option.some.injEq] at h
      subst h
      exact matchParseHeaderAt_sound hm
    | none =>
      rw [hm] at h
      obtain ⟨a, us, b, hus, q1, q2, q3, q4, q5, hs⟩ := ih h
      exact ⟨c :: a, us, b, hus, q1, q2, q3, q4, q5, by rw [hs]; simp⟩

/-- C2: the Header Codec round-trips every header line built from a triple of
decimal strings (with optional leading spaces, an optional underscore before
the index, and arbitrary trailing text covering the pattern's optional
trailing ` *\n?`), and, being a total function into `Option`, it never
throws; on any line that does not contain the header pattern (the
contrapositive of `parse_header_sound`) it returns the explicit `none`. -/
theorem claim_C2_header_codec :
    (∀ (sp own parent idx tail : LC) (und : Bool),
      (∀ ch ∈ sp, ch = ' ') → own ≠ [] → (∀ ch ∈ own, ch.isDigit = true) →
      parent ≠ [] → (∀ ch ∈ parent, ch.isDigit = true) →
      idx ≠ [] → (∀ ch ∈ idx, ch.isDigit = true) →
      parse_header (sp ++ ['_'] ++ own ++ [' ', '=', ' ', '(', '_'] ++ parent ++ [',', ' ']
          ++ (if und then ['_'] else []) ++ idx ++ [')'] ++ tail)
        = some (own, parent, idx))
    ∧ (∀ s own parent idx, parse_header s = some (own, parent, idx) →
        HeaderShaped s own parent idx) := by
  constructor
  · intro sp own parent idx tail und hsp hone hodig hpne hpdig hine hidig
    have hshape : sp ++ ['_'] ++ own ++ [' ', '=', ' ', '(', '_'] ++ parent ++ [',', ' ']
        ++ (if und then ['_'] else []) ++ idx ++ [')'] ++ tail
        = sp ++ ('_' :: (own ++ (' ' :: '=' :: ' ' :: '(' :: '_' ::
          (parent ++ (',' :: ' ' :: ((if und then ['_'] else [])
            ++ (idx ++ (')' :: tail)))))))) := by
      simp [List.append_assoc]
    rw [hshape]
    have hmatch := matchParseHeaderAt_render_aux (u := if und then ['_'] else []) tail
      hsp hone hodig hpne hpdig hine hidig (optStep_underscore (b := und) hine hidig)
    apply parse_header_of_matchAt hmatch
  · intro s own parent idx h
    exact parse_header_sound h

/-- Witness for C2 at a concrete header line and a concrete successful parse. -/
theorem claim_C2_witness :
    parse_header "  _12 = (_3, _0) x".data = some ("12".data, "3".data, "0".data)
      ∧ HeaderShaped "y _7 = (_name, 4)".data "7".data "name".data "4".data := by
  constructor
  · exact claim_C2_header_codec.1 [' ', ' '] ['1', '2'] ['3'] ['0'] [' ', 'x'] true
      (by decide) (by decide) (by decide) (by decide) (by decide) (by decide) (by decide)
  · exact claim_C2_header_codec.2 "y _7 = (_name, 4)".data "7".data "name".data "4".data
      (by decide)

/-- Witness for C1: two sibling chunks under parent id `1` whose own ids `2`
and `0` are out of numeric order, with non-header body text. -/
theorem claim_C1_witness :
    printNodesRecords (renderChunks ['1']
        [⟨[], ['2'], false, ['0'], "ui.text(a)\n".data⟩,
         ⟨[' '], ['0'], true, ['1'], "foo bar\n".data⟩])
      = .ok (chunkRecords ['1']
        [⟨[], ['2'], false, ['0'], "ui.text(a)\n".data⟩,
         ⟨[' '], ['0'], true, ['1'], "foo bar\n".data⟩])
      ∧ (chunkRecords ['1']
        [⟨[], ['2'], false, ['0'], "ui.text(a)\n".data⟩,
         ⟨[' '], ['0'], true, ['1'], "foo bar\n".data⟩]).foldr
          (fun p acc => p.1 ++ p.2 ++ acc) []
        = renderChunks ['1']
        [⟨[], ['2'], false, ['0'], "ui.text(a)\n".data⟩,
         ⟨[' '], ['0'], true, ['1'], "foo bar\n".data⟩] :=
  claim_C1_block_splitter _ (by decide) (by decide) (by decide)

instance {e a : Type} [DecidableEq e] [DecidableEq a] : DecidableEq (Except e a) := by
  intro x y
  cases x <;> cases y
  case error.error ea eb => exact decidable_of_iff (ea = eb) (by simp)
  case error.ok => exact isFalse (by simp)
  case ok.error => exact isFalse (by simp)
  case ok.ok xa xb => exact decidable_of_iff (xa = xb) (by simp)

lemma run_nodes_eq (f : Nat) (cfg : Config) (code : LC) (extra : Int) (w : PWriter) :
    run (f + 1) cfg (.nodes code extra) w
      = match splitOnceChar '\n' code with
        | none => .ok w
        | some (header, _) =>
          match parse_header header with
          | none => .error .exn
          | some (_, parent_id, _) =>
            match run f cfg (.nodesLoop (reSplitHeader parent_id code).2) (incLevel extra w) with
            | .ok w2 => .ok (incLevel (-extra) w2)
            | .error e => .error e := rfl

lemma run_node_eq (f : Nat) (cfg : Config) (header code : LC) (w : PWriter) :
    run (f + 1) cfg (.node header code) w
      = match (if matchForArtifact code then
            match splitOnceChar '\n' code with
            | some (_, restOfCode) => Except.ok restOfCode
            | none => Except.error Err.exn
          else Except.ok code : Except Err LC) with
        | .error e => .error e
        | .ok code2 =>
          match findHandler dispatch (pyLStrip code2) with
          | some .hIf => run f cfg (.cIf header code2) w
          | some .hFor => run f cfg (.cFor header code2) w
          | some .hUse => print_use header code2 w
          | some .hDefault => print_default header code2 w
          | some .hHotspot => print_hotspot cfg header code2 w
          | some .hUi => run f cfg (.cUi header code2) w
          | none => print_python header code2 w := rfl

lemma run_cIf_eq (f : Nat) (cfg : Config) (header code : LC) (w : PWriter) :
    run (f + 1) cfg (.cIf header code) w
      = match (splitlinesPy code).get? 1 with
        | none => .error .exn
        | some l1 =>
          if parse_header l1 = none then print_python header code w
          else
            run f cfg (.ifLoop (splitlinesPy code) 0 (splitlinesPy code).length
              (((splitlinesPy code).headD []).length
                - (pyLStrip ((splitlinesPy code).headD [])).length) [])
              (indentW w) := rfl

lemma run_cFor_eq (f : Nat) (cfg : Config) (header code : LC) (w : PWriter) :
    run (f + 1) cfg (.cFor header code) w
      = match (splitlinesPy code).get? 1 with
        | none => .error .exn
        | some l1 =>
          if parse_header l1 = none then print_python header code w
          else
            match print_condition "for".data ((splitlinesPy code).headD []) (indentW w) with
            | .ok w2 => run f cfg (.block ((splitlinesPy code).drop 1).dropLast) w2
            | .error e => .error e := rfl

/-- C3 (counterexample): a two-line text with no header line anywhere makes
the Block Splitter raise (the tuple unpacking of the `None` returned by
`parse_header`, source line 148), instead of yielding zero children as the
claim states. -/
theorem claim_C3_counterexample :
    (∀ l ∈ splitlinesPy "foo\nbar".data, parse_header l = none)
      ∧ printNodesRecords "foo\nbar".data = .error ()
      ∧ (∀ f cfg extra w, run (f + 1) cfg (.nodes "foo\nbar".data extra) w
          = .error .exn) := by
  refine ⟨by decide, ?_, ?_⟩
  · unfold printNodesRecords
    simp only [show splitOnceChar '\n' "foo\nbar".data = some ("foo".data, "bar".data)
        from by decide,
      show parse_header "foo".data = none from by decide]
  · intro f cfg extra w
    rw [run_nodes_eq]
    simp only [show splitOnceChar '\n' "foo\nbar".data = some ("foo".data, "bar".data)
        from by decide,
      show parse_header "foo".data = none from by decide]

/-- C3 (amended): on a single-line input (no newline at all) the Block
Splitter yields zero children and returns normally with the writer untouched;
the original claim extended this to multi-line header-free text, where the
code instead raises (see the counterexample). -/
theorem claim_C3_amended (code : LC) (f : Nat) (cfg : Config) (extra : Int)
    (w : PWriter) (h : '\n' ∉ code) :
    printNodesRecords code = .ok [] ∧ run (f + 1) cfg (.nodes code extra) w = .ok w := by
  have hsplit := splitOnceChar_eq_none h
  constructor
  · unfold printNodesRecords
    rw [hsplit]
  · rw [run_nodes_eq, hsplit]

/-- Witness for C3 (amended) at a concrete single-line input. -/
theorem claim_C3_witness :
    printNodesRecords "ui.text(a)".data = .ok []
      ∧ run 1 ⟨true, true, true, false⟩ (.nodes "ui.text(a)".data 1) ⟨0, []⟩
        = .ok ⟨0, []⟩ :=
  claim_C3_amended "ui.text(a)".data 0 ⟨true, true, true, false⟩ 1 ⟨0, []⟩ (by decide)

/-- C4 (counterexample): a one-line body whose leading token selects the
conditional handler makes `print_if` raise an `IndexError` on `lines[1]`
(source line 266) instead of returning normally through the escape hatch. -/
theorem claim_C4_counterexample :
    (splitlinesPy "if True:".data).length = 1
      ∧ (∀ f cfg w, run (f + 2) cfg (.node "_1 = (_name, 0)".data "if True:".data) w
          = .error .exn) := by
  refine ⟨by decide, ?_⟩
  intro f cfg w
  rw [show (f + 2) = (f + 1) + 1 from rfl, run_node_eq]
  simp only [show matchForArtifact "if True:".data = false from by decide, if_false,
    Bool.false_eq_true,
    show findHandler dispatch (pyLStrip "if True:".data) = some .hIf from by decide]
  rw [run_cIf_eq]
  simp only [show (splitlinesPy "if True:".data).get? 1 = none from by decide]

/-- C4 (amended): when the body has at least two lines and the second is not
a valid header, both the conditional handler and the loop handler fall back
to the escape hatch and return normally; a one-line body instead raises (see
the counterexample). -/
theorem claim_C4_amended (f : Nat) (cfg : Config) (header code : LC) (w : PWriter)
    (hlen : 2 ≤ (splitlinesPy code).length)
    (hhdr : parse_header ((splitlinesPy code).getD 1 []) = none) :
    run (f + 1) cfg (.cIf header code) w = print_python header code w
      ∧ run (f + 1) cfg (.cFor header code) w = print_python header code w
      ∧ ∃ w', print_python header code w = .ok w' := by
  obtain ⟨a, b, rest, hsl⟩ : ∃ a b rest, splitlinesPy code = a :: b :: rest := by
    match hx : splitlinesPy code with
    | [] => rw [hx] at hlen; exact absurd hlen (by simp)
    | [x] => rw [hx] at hlen; exact absurd hlen (by simp)
    | a :: b :: rest => exact ⟨a, b, rest, rfl⟩
  rw [hsl] at hhdr
  simp only [List.getD_cons_succ, List.getD_cons_zero] at hhdr
  refine ⟨?_, ?_, print_python_ok header code w⟩
  · rw [run_cIf_eq, hsl]
    simp only [List.get?_cons_succ, List.get?_cons_zero, hhdr]
    simp
  · rw [run_cFor_eq, hsl]
    simp only [List.get?_cons_succ, List.get?_cons_zero, hhdr]
    simp

/-- Witness for C4 (amended) at a concrete two-line python body. -/
theorem claim_C4_witness :
    run 5 ⟨true, true, true, false⟩ (.cIf "h".data "if True:\n    x = 1".data) ⟨0, []⟩
        = print_python "h".data "if True:\n    x = 1".data ⟨0, []⟩
      ∧ run 5 ⟨true, true, true, false⟩ (.cFor "h".data "if True:\n    x = 1".data) ⟨0, []⟩
        = print_python "h".data "if True:\n    x = 1".data ⟨0, []⟩
      ∧ ∃ w', print_python "h".data "if True:\n    x = 1".data (⟨0, []⟩ : PWriter)
          = .ok w' :=
  claim_C4_amended 4 ⟨true, true, true, false⟩ "h".data "if True:\n    x = 1".data ⟨0, []⟩
    (by decide) (by decide)

/-- C5: the argument parser treats a comma as a separator only at top level:
a comma inside a quoted string or inside a bracketed container does not split,
so the two canonical call strings parse to one positional and one keyword
argument each, with no variadic captures. -/
theorem claim_C5_parse_args :
    parse_args "f(\"a,b\", x=1)".data
        = some (["\"a,b\"".data], [("x".data, "1".data)], none, none)
      ∧ parse_args "f([1,2,3], y=\x7b\x27a\x27:1\x7d)".data
        = some (["[1,2,3]".data], [("y".data, "\x7b\x27a\x27:1\x7d".data)], none, none) := by
  constructor
  · rfl
  · rfl

/-!  ## The escape hatch and claim C6  -/

lemma foldl_emit_lines (k : Nat) (lines : List LC) (w : PWriter) :
    lines.foldl (fun w line => writeW (line.drop k) (indentW w)) w
      = ⟨w.indent_level,
          (lines.map (fun l => (w.indent_level, l.drop k))).reverse ++ w.rev_lines⟩ := by
  induction lines generalizing w with
  | nil => simp
  | cons l rest ih =>
    rw [List.foldl_cons, ih]
    simp [writeW, indentW]

/-- The re-indentation of a multi-line body that the spec prescribes: every
line is stripped of the block's own minimum indentation, the minimum being
taken over the non-blank lines.  This definition follows the specification's
words; the source instead uses the indentation of the first non-blank line. -/
def pythonBlockSpec (code : LC) : List LC :=
  let lines := splitlinesPy code
  let indents := (lines.filter (fun l => ¬ pyStrip l = [])).map
    (fun l => l.length - (pyLStrip l).length)
  let minIndent := indents.foldr min (indents.headD 0)
  lines.map (fun l => l.drop minIndent)

/-- C6 (counterexample): on the body `"    a\nb"` the escape hatch removes the
first non-blank line's indentation (four columns), truncating the second line
to nothing, while the claim's minimum-indentation re-indentation (zero
columns) would keep both lines intact. -/
theorem claim_C6_counterexample :
    print_python "h".data "    a\nb".data ⟨0, []⟩
        = .ok ⟨0, [(1, []), (1, "a".data), (0, "python:".data)]⟩
      ∧ pythonBlockSpec "    a\nb".data = ["    a".data, "b".data]
      ∧ ([(1, ([] : LC)), (1, "a".data)] : List (Int × LC))
          ≠ [(1, "    a".data), (1, "b".data)] := by
  refine ⟨?_, by decide, by decide⟩
  unfold print_python
  dsimp only
  rw [if_pos (by decide)]
  rw [show (splitlinesPy "    a\nb".data).find? (fun l => ¬ pyStrip l = [])
      = some "    a".data from by decide]
  rw [show splitlinesPy "    a\nb".data = ["    a".data, "b".data] from by decide]
  dsimp only
  rw [foldl_emit_lines]
  decide

/-- C6 (amended): a one-line unrecognized body emits the single
inline-execution line `$ <body stripped>`; a multi-line body emits a
`python:` block whose lines are re-indented by removing the indentation of
the first non-blank line (which equals the block minimum only when the first
non-blank line is minimally indented), one indentation level deeper. -/
theorem claim_C6_amended (header code : LC) (w : PWriter) :
    (¬ '\n' ∈ pyStrip code →
      print_python header code w
        = .ok ⟨w.indent_level, (w.indent_level, "$ ".data ++ pyStrip code) :: w.rev_lines⟩)
    ∧ (∀ first, '\n' ∈ pyStrip code →
        (splitlinesPy code).find? (fun l => ¬ pyStrip l = []) = some first →
        print_python header code w
          = .ok ⟨w.indent_level,
              ((splitlinesPy code).map (fun l =>
                  ((w.indent_level + 1 : Int),
                    l.drop (first.length - (pyLStrip first).length)))).reverse
                ++ (w.indent_level, "python:".data) :: w.rev_lines⟩) := by
  constructor
  · intro hnl
    unfold print_python
    dsimp only
    rw [if_neg hnl]
    simp [writeW, indentW]
  · intro first hml hfind
    unfold print_python
    dsimp only
    rw [if_pos hml, hfind]
    dsimp only
    rw [foldl_emit_lines]
    simp [writeW, indentW, incLevel]
    try omega

/-- Witness for C6 (amended) on a concrete multi-line body. -/
theorem claim_C6_witness :
    print_python "h".data "  a\n  b".data ⟨0, []⟩
      = .ok ⟨0, ((splitlinesPy "  a\n  b".data).map (fun l =>
            ((1 : Int), l.drop ("  a".data.length - (pyLStrip "  a".data).length)))).reverse
          ++ (0, "python:".data) :: []⟩ :=
  (claim_C6_amended "h".data "  a\n  b".data ⟨0, []⟩).2 "  a".data (by decide) (by decide)

/-!  ## The dispatch registry and claim C7  -/

lemma findHandler_agree (s : LC) :
    ∀ p ∈ dispatch, ∀ q ∈ dispatch,
      p.1.data.isPrefixOf s = true → q.1.data.isPrefixOf s = true → p.2 = q.2 := by
  have hcore : ∀ p ∈ dispatch, ∀ q ∈ dispatch,
      p.1.data.isPrefixOf q.1.data = true → p.2 = q.2 := by decide
  intro p hp q hq hps hqs
  have h1 : p.1.data <+: s := List.isPrefixOf_iff_prefix.mp hps
  have h2 : q.1.data <+: s := List.isPrefixOf_iff_prefix.mp hqs
  rcases List.prefix_or_prefix_of_prefix h1 h2 with h | h
  · exact hcore p hp q hq (List.isPrefixOf_iff_prefix.mpr h)
  · exact (hcore q hq p hp (List.isPrefixOf_iff_prefix.mpr h)).symm

/-- C7 (counterexample): the registry is not prefix-free: `ui.text` is a
registered prefix and also a proper prefix of the registered `ui.textbutton`
(and likewise `ui.drag` / `ui.draggroup`). -/
theorem claim_C7_counterexample :
    ("ui.text", Handler.hUi) ∈ dispatch
      ∧ ("ui.textbutton", Handler.hUi) ∈ dispatch
      ∧ "ui.text" ≠ "ui.textbutton"
      ∧ "ui.text".data.isPrefixOf "ui.textbutton".data = true
      ∧ ("ui.drag", Handler.hUi) ∈ dispatch
      ∧ ("ui.draggroup", Handler.hUi) ∈ dispatch
      ∧ "ui.drag".data.isPrefixOf "ui.draggroup".data = true := by
  refine ⟨by decide, by decide, ?_, by decide, by decide, by decide, by decide⟩
  intro hcon
  exact absurd (congrArg String.data hcon) (by decide)

/-- C7 (amended): the registry is not prefix-free (see the counterexample),
but every pair of registered prefixes of which one is a prefix of the other
maps to the same handler, so the prefix lookup of the dispatcher selects the
same handler under every iteration order over the registry. -/
theorem claim_C7_amended (reg : List (String × Handler))
    (hperm : List.Perm reg dispatch) (s : LC) :
    findHandler reg s = findHandler dispatch s := by
  unfold findHandler
  cases hf : dispatch.find? (fun p => p.1.data.isPrefixOf s) with
  | none =>
    have hall := List.find?_eq_none.mp hf
    have hreg : reg.find? (fun p => p.1.data.isPrefixOf s) = none :=
      List.find?_eq_none.mpr (fun x hx => hall x (hperm.mem_iff.mp hx))
    rw [hreg]
  | some p =>
    have hp := List.find?_some hf
    have hpm := List.mem_of_find?_eq_some hf
    cases hg : reg.find? (fun q => q.1.data.isPrefixOf s) with
    | none =>
      have := List.find?_eq_none.mp hg p (hperm.mem_iff.mpr hpm)
      simp [hp] at this
    | some q =>
      have hq := List.find?_some hg
      have hqm := hperm.mem_iff.mp (List.mem_of_find?_eq_some hg)
      simp only [Option.map_some']
      rw [findHandler_agree s q hqm p hpm hq hp]

/-- Witness for C7 (amended): the reversed registry resolves a `ui.textbutton`
body to the same handler as the source registry. -/
theorem claim_C7_witness :
    findHandler dispatch.reverse "ui.textbutton(a)".data
      = findHandler dispatch "ui.textbutton(a)".data :=
  claim_C7_amended dispatch.reverse (List.reverse_perm dispatch) "ui.textbutton(a)".data

/-!  ## Claim C8: indentation balance of the exit paths  -/

lemma print_screen_level {fuel : Nat} {cfg : Config} {ast : ScreenAst} {w w' : PWriter}
    (hpy : cfg.decompile_python = true)
    (h : print_screen fuel cfg ast w = .ok w') : w'.indent_level = w.indent_level := by
  unfold print_screen at h
  dsimp only at h
  split at h
  · exact absurd h (by simp)
  · split at h
    next hnp => simp [hpy] at hnp
    next =>
      split at h
      · split at h
        next w2 hrun =>
          rw [Except.ok.injEq] at h
          subst h
          have hl := run_level fuel cfg _ _ _ hrun
          simp only [incLevel_level]
          rw [hl]
          cases ast.parameters <;> cases ast.tag <;> simp <;> try split <;> simp
        next => exact absurd h (by simp)
      · rw [Except.ok.injEq] at h
        subst h
        cases ast.parameters <;> cases ast.tag <;> simp <;> try split <;> simp

/-- C8 (counterexample): with python decompilation disabled, `print_screen`
takes the early return of source lines 110-113 after `indent_level += 1`
without the balancing decrement, so the indentation counter leaves the call
one above its entry value. -/
theorem claim_C8_counterexample :
    print_screen 0 ⟨false, false, false, false⟩
        ⟨"screen_name_1".data, none, none, none, none, none, []⟩ ⟨0, []⟩
      = .ok ⟨1, [(1, "pass # Screen code not extracted".data),
                 (0, "screen screen_name_1:".data)]⟩
    ∧ ((1 : Int) = 0 → False) := by
  exact ⟨rfl, by decide⟩

/-- C8 (amended): the recursive printing routines `print_nodes` and
`print_block`, and the leaf routines `print_arguments` and `print_python`,
leave the indentation counter at its entry value on every successful exit;
`print_screen` does so only when python decompilation is enabled (the
counterexample shows the early return of the disabled case leaves the counter
unbalanced). -/
theorem claim_C8_amended :
    (∀ fuel cfg code extra w w_r,
        run fuel cfg (.nodes code extra) w = .ok w_r → w_r.indent_level = w.indent_level)
    ∧ (∀ fuel cfg blockLines w w_r,
        run fuel cfg (.block blockLines) w = .ok w_r → w_r.indent_level = w.indent_level)
    ∧ (∀ cfg args kwargs multiline w,
        (print_arguments cfg args kwargs multiline w).indent_level = w.indent_level)
    ∧ (∀ header code w w_r,
        print_python header code w = .ok w_r → w_r.indent_level = w.indent_level)
    ∧ (∀ fuel cfg ast w w_r, cfg.decompile_python = true →
        print_screen fuel cfg ast w = .ok w_r → w_r.indent_level = w.indent_level) := by
  refine ⟨?_, ?_, ?_, ?_, ?_⟩
  · intro fuel cfg code extra w w_r h
    exact run_level fuel cfg _ w w_r h
  · intro fuel cfg blockLines w w_r h
    exact run_level fuel cfg _ w w_r h
  · exact print_arguments_level
  · intro header code w w_r h
    exact print_python_level h
  · intro fuel cfg ast w w_r hpy h
    exact print_screen_level hpy h

/-- Witness for C8 (amended): a concrete `print_screen` run with python
decompilation enabled (python-block fallback path) comes back at entry depth
3, and a concrete one-line `print_nodes` call at entry depth 7. -/
theorem claim_C8_witness :
    (⟨3, [(5, "line two".data), (4, "python:".data), (3, "screen s:".data)]⟩
        : PWriter).indent_level = (3 : Int)
      ∧ (⟨7, ([] : List (Int × LC))⟩ : PWriter).indent_level = (7 : Int) := by
  constructor
  · exact claim_C8_amended.2.2.2.2 0 ⟨false, true, false, false⟩
      ⟨"s".data, none, none, none, none, none, "line one\nline two".data⟩
      ⟨3, []⟩ _ rfl rfl
  · exact claim_C8_amended.1 5 ⟨false, true, true, false⟩ "no newline here".data 0
      ⟨7, []⟩ ⟨7, []⟩ rfl

/-!  ## Claim C9: the use handler  -/

/-- The keyword filter of `print_use` (source line 319): the internally
injected `_scope` and `_name` keyword arguments are dropped. -/
def kwFilter (kwargs : List (LC × LC)) : List (LC × LC) :=
  kwargs.filter (fun p => ¬ (p.1 = "_scope".data ∨ p.1 = "_name".data))

/-- C9: on a use-statement body whose first positional argument is a quoted
screen-name literal, `print_use` emits one line at the current depth carrying
the name with its quoting removed, drops the injected `_scope` and `_name`
keyword arguments, and appends a parenthesized argument suffix exactly when a
positional, keyword, variadic-positional or variadic-keyword argument remains
after that filtering. -/
theorem claim_C9_print_use (header code name : LC) (args : List LC)
    (kwargs : List (LC × LC)) (exargs exkwargs : Option LC) (w : PWriter)
    (hargs : parse_args (pyStrip code)
      = some ((['u', '\x27'] ++ name ++ ['\x27']) :: args, kwargs, exargs, exkwargs)) :
    print_use header code w = .ok { w with rev_lines :=
      (w.indent_level,
        "use ".data ++ name
          ++ (if args ≠ [] ∨ kwFilter kwargs ≠ [] ∨ truthy exargs = true
                ∨ truthy exkwargs = true
              then ['('] ++ List.intercalate ", ".data
                  (args ++ (kwFilter kwargs).map (fun p => p.1 ++ ['='] ++ p.2)
                    ++ (if truthy exargs then [['*'] ++ exargs.getD []] else [])
                    ++ (if truthy exkwargs then [['*', '*'] ++ exkwargs.getD []] else []))
                ++ [')']
              else [])) :: w.rev_lines } := by
  unfold print_use
  dsimp only
  rw [hargs]
  dsimp only
  have hname : ((['u', '\x27'] ++ name ++ ['\x27']).drop 2).dropLast = name := by
    rw [show (['u', '\x27'] ++ name ++ ['\x27']).drop 2 = name ++ ['\x27'] from rfl]
    exact List.dropLast_concat
  rw [hname]
  by_cases hcond : args ≠ [] ∨ kwFilter kwargs ≠ [] ∨ truthy exargs = true
      ∨ truthy exkwargs = true
  · rw [if_pos ?_, if_pos hcond]
    · simp [writeW, indentW, kwFilter]
    · simpa [kwFilter] using hcond
  · rw [if_neg ?_, if_neg hcond]
    · simp [writeW, indentW]
    · simpa [kwFilter] using hcond

/-- Witness for C9: `renpy.use_screen(u\x27bar\x27, x=1, _scope=s, _name=n)`
prints as the single line `use bar(x=1)`. -/
theorem claim_C9_witness :
    print_use [] "renpy.use_screen(u\x27bar\x27, x=1, _scope=s, _name=n)".data ⟨2, []⟩
      = .ok ⟨2, [(2, "use bar(x=1)".data)]⟩ := by
  have h := claim_C9_print_use []
    "renpy.use_screen(u\x27bar\x27, x=1, _scope=s, _name=n)".data
    "bar".data [] [("x".data, "1".data), ("_scope".data, "s".data),
      ("_name".data, "n".data)] none none ⟨2, []⟩ (by rfl)
  rw [h]
  rfl

/-!  ## Claim C10: the ui.close() line filter  -/

/-- C10 (counterexample): the filter removes nothing from this body (no LINE
of it strips to `ui.close()`), yet the Block Splitter hands the second child a
body whose first line strips to exactly `ui.close()`: the second header match
ends mid-line after its trailing spaces, so the tail of that line opens the
child body. -/
theorem claim_C10_counterexample :
    filterClose "_1 = (_name, 0)\n _2 = (_name, 1) ui.close()\nfoo".data
        = "_1 = (_name, 0)\n _2 = (_name, 1) ui.close()\nfoo".data
      ∧ printNodesRecords "_1 = (_name, 0)\n _2 = (_name, 1) ui.close()\nfoo".data
        = .ok [("_1 = (_name, 0)\n".data, []),
               (" _2 = (_name, 1) ".data, "ui.close()\nfoo".data)]
      ∧ (splitlinesPy "ui.close()\nfoo".data).head? = some "ui.close()".data
      ∧ pyStrip "ui.close()".data = "ui.close()".data := by
  refine ⟨rfl, ?_, rfl, rfl⟩
  have hm2 : findHeaderMatch "name".data "ui.close()\nfoo".data = none := rfl
  have hm1 : findHeaderMatch "name".data " _2 = (_name, 1) ui.close()\nfoo".data
      = some ([], " _2 = (_name, 1) ".data, "ui.close()\nfoo".data) := rfl
  have hm0 : findHeaderMatch "name".data
        "_1 = (_name, 0)\n _2 = (_name, 1) ui.close()\nfoo".data
      = some ([], "_1 = (_name, 0)\n".data,
          " _2 = (_name, 1) ui.close()\nfoo".data) := rfl
  have e2 := reSplitHeader_none hm2
  have e1 := reSplitHeader_some hm1
  rw [e2] at e1
  dsimp only at e1
  have e0 := reSplitHeader_some hm0
  rw [e1] at e0
  dsimp only at e0
  have hsplit : splitOnceChar '\n'
        "_1 = (_name, 0)\n _2 = (_name, 1) ui.close()\nfoo".data
      = some ("_1 = (_name, 0)".data,
          " _2 = (_name, 1) ui.close()\nfoo".data) := rfl
  have hph : parse_header "_1 = (_name, 0)".data
      = some ("1".data, "name".data, "0".data) := rfl
  unfold printNodesRecords
  rw [hsplit]
  dsimp only
  rw [hph]
  dsimp only
  rw [e0]

/-- C10 (amended): `print_screen` does delete every line of the flattened body
whose stripped content is exactly `ui.close()` before handing the body to the
Block Splitter — no line of the filtered text strips to `ui.close()` — but the
counterexample shows a CHILD body can still contain such a line, since a
header match ending mid-line puts the rest of that line at the start of the
child body. -/
theorem claim_C10_amended (code : LC) :
    (splitlinesPy (filterClose code)).all
      (fun l => ¬ pyStrip l = "ui.close()".data) = true := by
  rw [List.all_eq_true]
  intro l hl
  unfold filterClose at hl
  have hmem : l ∈ (splitlinesPy code).filter
      (fun line => ¬ pyStrip line = "ui.close()".data) := by
    refine mem_splitlinesPy_intercalate ?_ l hl
    intro x hx
    exact mem_splitlinesPy_no_nl x (List.mem_filter.mp hx).1
  have hpred := (List.mem_filter.mp hmem).2
  simpa using hpred
